import Mathlib

/-!
Verification of the CRC32-Creation-and-Modification repository.

The development shallowly embeds the two Python source files:

* CRC32.py: a manual bitwise CRC-32 digest (function calculate_crc32).
* crc32_modifier.py: a CRC-32 forging tool: GF(2) polynomial arithmetic
  modulo the CRC-32 generator (multiply_mod, pow_mod, divide_and_remainder,
  reciprocal_mod), a chunked digest (get_crc32 over zlib.crc32), bit
  reversal (reverse32), and the file patcher (modify_file_crc32).

Byte stores are embedded as List Nat (each element a byte value), machine
integers as Nat with explicit masking exactly where the source masks.
Python while-loops become structurally recursive functions with an explicit
fuel argument; in every loop below the fuel is chosen so that it provably
never runs out (the loop variable strictly decreases), so the fuelled
function agrees with the unbounded Python loop on all inputs.
zlib.crc32 (an external library call) is modelled by its documented
semantics: the standard reflected CRC-32 update of a running 32-bit value,
which is the same per-byte loop that CRC32.py implements by hand.
Python's int(s, 16) (an external builtin) is modelled for ASCII strings by
its documented grammar: optional surrounding whitespace, optional sign,
optional 0x prefix, hex digits with single underscores between digits.
-/

/-! ## Constants (crc32_modifier.py lines 99-101) -/

/-- CRC-32 generator polynomial, 33 bits (crc32_modifier.py line 100). -/
def POLYNOMIAL : Nat := 0x104C11DB7

/-- Mask keeping values within 32 bits (crc32_modifier.py line 101). -/
def MASK : Nat := (1 <<< 32) - 1

/-- Reflected form of the CRC-32 generator used by the byte-wise digest
(CRC32.py line 17). -/
def CRC32_GEN : Nat := 0xEDB88320

/-! ## Bit reversal (crc32_modifier.py lines 122-136) -/

/-- Loop of reverse32: 32 rounds of y = (y << 1) | (x & 1); x >>= 1. -/
def rev32Loop : Nat → Nat → Nat → Nat
  | 0, _, y => y
  | n+1, x, y => rev32Loop n (x >>> 1) ((y <<< 1) ||| (x &&& 1))

/-- Reverses the bits in a 32-bit integer (crc32_modifier.py reverse32). -/
def reverse32 (x : Nat) : Nat := rev32Loop 32 x 0

/-! ## The byte-wise CRC-32 digest (CRC32.py lines 3-37) -/

/-- One bit round of the reflected CRC-32 digest: if the least significant
bit is set, shift right and xor the generator, else just shift right
(CRC32.py lines 29-34). -/
def crc32Round (crc : Nat) : Nat :=
  if crc &&& 1 = 1 then (crc >>> 1) ^^^ CRC32_GEN else crc >>> 1

/-- Iterated bit rounds (the inner for-loop over 8 bits). -/
def crcRounds : Nat → Nat → Nat
  | 0, crc => crc
  | n+1, crc => crcRounds n (crc32Round crc)

/-- One byte step: xor the byte into the register, then 8 bit rounds
(CRC32.py lines 22-34). -/
def crc32UpdateByte (crc b : Nat) : Nat := crcRounds 8 (crc ^^^ b)

/-- CRC32.py calculate_crc32 on the UTF-8 bytes of its string input: start
from 0xFFFFFFFF, process each byte, invert at the end.  The encoding step
is embedded by taking the byte list directly. -/
def calculate_crc32 (data : List Nat) : Nat :=
  (data.foldl crc32UpdateByte 0xFFFFFFFF) ^^^ 0xFFFFFFFF

/-- Semantics of the external zlib.crc32(buf, running): complement the
running value, feed the bytes through the reflected CRC loop, complement
again.  With running = 0 this is exactly calculate_crc32. -/
def zlibCrc32 (buf : List Nat) (running : Nat) : Nat :=
  (buf.foldl crc32UpdateByte (running ^^^ 0xFFFFFFFF)) ^^^ 0xFFFFFFFF

/-! ## Chunked whole-file digest (crc32_modifier.py lines 103-120) -/

/-- Loop of get_crc32: read 128 KiB chunks, fold them through zlib.crc32
starting from 0, and bit-reverse the final value.  One unit of fuel is
spent per chunk; content shrinks by 131072 bytes per iteration, so fuel
length+1 never runs out. -/
def getCrc32Loop : Nat → List Nat → Nat → Nat
  | 0, _, crc => reverse32 crc
  | fuel+1, content, crc =>
    if content = [] then reverse32 crc
    else getCrc32Loop fuel (content.drop 131072)
          (zlibCrc32 (content.take 131072) crc)

/-- crc32_modifier.py get_crc32 of a whole byte store. -/
def get_crc32 (content : List Nat) : Nat :=
  getCrc32Loop (content.length + 1) content 0

/-! ## Bit degree (crc32_modifier.py get_degree, line 228) -/

/-- Fuelled bit length; fuel x suffices for input x. -/
def bitLenAux : Nat → Nat → Nat
  | 0, _ => 0
  | fuel+1, x => if x = 0 then 0 else bitLenAux fuel (x >>> 1) + 1

/-- Number of bits of a natural number (Python int.bit_length). -/
def bitLen (x : Nat) : Nat := bitLenAux x x

/-- Position of the highest set bit, bit_length - 1 (crc32_modifier.py
get_degree).  Python returns -1 for input 0; this Nat version returns 0
there, which is harmless since every caller guards against 0, and the
negative-range loop case is embedded as the explicit early-return branch
of divRemT below. -/
def get_degree (x : Nat) : Nat := bitLen x - 1

/-! ## Polynomial division (crc32_modifier.py lines 178-200) -/

/-- Loop of divide_and_remainder: the index i runs from
get_degree(x) - ydeg down to 0; the first argument is i+1 so that the
current index is one less than the fuel. -/
def divRemLoop (y ydeg : Nat) : Nat → Nat → Nat → Nat × Nat
  | 0, x, z => (z, x)
  | i+1, x, z =>
    if (x >>> (i + ydeg)) &&& 1 = 1 then
      divRemLoop y ydeg i (x ^^^ (y <<< i)) (z ||| (1 <<< i))
    else
      divRemLoop y ydeg i x z

/-- Total core of divide_and_remainder, defined for y not zero: quotient
and remainder of GF(2) polynomial division.  The xdeg < ydeg branch is the
empty loop range of the source. -/
def divRemT (x y : Nat) : Nat × Nat :=
  if x = 0 then (0, 0)
  else
    if get_degree x < get_degree y then (0, x)
    else divRemLoop y (get_degree y) (get_degree x - get_degree y + 1) x 0

/-- crc32_modifier.py divide_and_remainder, with the ValueError on a zero
divisor embedded as an error value. -/
def divide_and_remainder (x y : Nat) : Except String (Nat × Nat) :=
  if y = 0 then .error "Division by zero" else .ok (divRemT x y)

/-! ## Modular multiplication (crc32_modifier.py lines 138-157) -/

/-- Loop of multiply_mod: while y is not zero, accumulate x into z when the
low bit of y is set, halve y, double x, and reduce x by the 33-bit
generator when its bit 32 becomes set.  y at least halves per iteration,
so fuel y+1 never runs out. -/
def mulModLoop : Nat → Nat → Nat → Nat → Nat
  | 0, _, _, z => z
  | fuel+1, x, y, z =>
    if y = 0 then z
    else
      mulModLoop fuel
        (if ((x <<< 1) >>> 32) &&& 1 = 1 then (x <<< 1) ^^^ POLYNOMIAL
         else x <<< 1)
        (y >>> 1)
        (if y &&& 1 = 1 then z ^^^ x else z)

/-- crc32_modifier.py multiply_mod: carry-less product modulo POLYNOMIAL. -/
def multiply_mod (x y : Nat) : Nat := mulModLoop (y+1) x y 0

/-! ## Modular exponentiation (crc32_modifier.py lines 159-176) -/

/-- Loop of pow_mod: square-and-multiply with multiply_mod.  y at least
halves per iteration, so fuel y+1 never runs out. -/
def powModLoop : Nat → Nat → Nat → Nat → Nat
  | 0, _, _, z => z
  | fuel+1, x, y, z =>
    if y = 0 then z
    else
      powModLoop fuel (multiply_mod x x) (y >>> 1)
        (if y &&& 1 = 1 then multiply_mod z x else z)

/-- crc32_modifier.py pow_mod. -/
def pow_mod (x y : Nat) : Nat := powModLoop (y+1) x y 1

/-! ## Modular reciprocal (crc32_modifier.py lines 202-226) -/

/-- Loop of reciprocal_mod: extended Euclidean algorithm on GF(2)
polynomials.  The loop variable y strictly decreases (the remainder of a
division by y is smaller than y), so fuel y+1 never runs out; the fuel-0
branch repeats the terminal test and is provably unreachable. -/
def recipLoop : Nat → Nat → Nat → Nat → Nat → Except String Nat
  | 0, x, y, a, _ =>
    if y = 0 then
      if x = 1 then .ok a else .error "Reciprocal does not exist"
    else .error "Reciprocal does not exist"
  | fuel+1, x, y, a, b =>
    if y = 0 then
      if x = 1 then .ok a else .error "Reciprocal does not exist"
    else
      recipLoop fuel y (divRemT x y).2 b (a ^^^ multiply_mod (divRemT x y).1 b)

/-- crc32_modifier.py reciprocal_mod: multiplicative inverse modulo
POLYNOMIAL, or the ValueError when none exists. -/
def reciprocal_mod (x : Nat) : Except String Nat :=
  recipLoop (x+1) POLYNOMIAL x 0 1

/-! ## The file patcher (crc32_modifier.py lines 52-97) -/

/-- crc32_modifier.py modify_file_crc32 on an in-memory byte store.  The
file is the list content; seek/read/write become list operations; each
raised exception becomes an error value carrying the source message:
the ValueError range check, the IOError short read, and the final
AssertionError of the verification step.  On success the patched content
is returned. -/
def modify_file_crc32 (content : List Nat) (offset newcrc : Nat) :
    Except String (List Nat) :=
  if offset + 4 > content.length then
    .error "Byte offset plus 4 exceeds file length"
  else
    match reciprocal_mod (pow_mod 2 ((content.length - offset) * 8)) with
    | .error e => .error e
    | .ok rcp =>
      let delta2 := multiply_mod rcp (get_crc32 content ^^^ newcrc)
      let bytes4 := (content.drop offset).take 4
      if bytes4.length ≠ 4 then .error "Cannot read 4 bytes at offset"
      else
        let patched := (List.range 4).map
          (fun i => bytes4.getD i 0 ^^^ ((reverse32 delta2 >>> (i * 8)) &&& 0xFF))
        let newContent := content.take offset ++ patched ++ content.drop (offset + 4)
        if get_crc32 newContent ≠ newcrc then
          .error "Failed to update CRC-32 to desired value"
        else .ok newContent

/-! ## Validation of the new-CRC command line argument
(crc32_modifier.py main, lines 29-38) -/

/-- Value of an ASCII hexadecimal digit character. -/
def hexDigitVal (c : Char) : Option Nat :=
  if '0' ≤ c ∧ c ≤ '9' then some (c.toNat - '0'.toNat)
  else if 'a' ≤ c ∧ c ≤ 'f' then some (c.toNat - 'a'.toNat + 10)
  else if 'A' ≤ c ∧ c ≤ 'F' then some (c.toNat - 'A'.toNat + 10)
  else none

/-- Tail of a Python hex-digit run: digits with single underscores allowed
only between digits. -/
def hexTail (acc : Nat) : List Char → Option Nat
  | [] => some acc
  | '_' :: c :: rest =>
    match hexDigitVal c with
    | some v => hexTail (16 * acc + v) rest
    | none => none
  | '_' :: [] => none
  | c :: rest =>
    match hexDigitVal c with
    | some v => hexTail (16 * acc + v) rest
    | none => none

/-- Python hex-digit run: at least one digit, then hexTail. -/
def hexRun : List Char → Option Nat
  | [] => none
  | c :: rest =>
    match hexDigitVal c with
    | some v => hexTail v rest
    | none => none

/-- Digits of a base-16 int literal, with optional 0x or 0X prefix; a
single underscore may follow the prefix. -/
def hexPrefixed : List Char → Option Nat
  | '0' :: 'x' :: '_' :: rest => hexRun rest
  | '0' :: 'x' :: rest => hexRun rest
  | '0' :: 'X' :: '_' :: rest => hexRun rest
  | '0' :: 'X' :: rest => hexRun rest
  | s => hexRun s

/-- Python whitespace characters stripped by int() (ASCII range). -/
def pyWhitespace (c : Char) : Bool :=
  c = ' ' ∨ c = '\t' ∨ c = '\n' ∨ c = '\r' ∨ c.toNat = 11 ∨ c.toNat = 12

/-- Modelled from the spec and the Python documentation: the external
builtin int(s, 16) for ASCII strings s (the source calls it on args[2]):
strip surrounding whitespace, allow one optional sign, an optional 0x
prefix, and a hex-digit run with single underscores; none means the
builtin raises ValueError. -/
def pyIntHex (s : List Char) : Option Int :=
  match ((s.dropWhile pyWhitespace).reverse.dropWhile pyWhitespace).reverse with
  | '+' :: r => (hexPrefixed r).map (fun n => (n : Int))
  | '-' :: r => (hexPrefixed r).map (fun n => -(n : Int))
  | r => (hexPrefixed r).map (fun n => (n : Int))

/-- Validation of the desired-checksum argument, crc32_modifier.py main
lines 29-38: require length 8, no leading plus or minus, a successful
int(s, 16) parse whose value survives masking to 32 bits, and return the
bit-reversed value; none embeds the early return of the error message.
Python's temp and MASK bitwise conjunction on a possibly negative temp is
two's-complement conjunction with the low-32 mask, which equals the
nonnegative remainder of temp modulo 2 to the 32. -/
def validate_new_crc (s : List Char) : Option Nat :=
  if s.length ≠ 8 then none
  else if s.head? = some '+' ∨ s.head? = some '-' then none
  else
    match pyIntHex s with
    | none => none
    | some temp =>
      if temp % ((MASK : Int) + 1) ≠ temp then none
      else some (reverse32 temp.toNat)

/-! ## Specification-side model: carry-less (GF(2) polynomial) arithmetic

Natural numbers are read as polynomials over GF(2), bit i being the
coefficient of x to the i.  clmul is polynomial multiplication, cpow
iterated multiplication, pdvd divisibility, pmodBy the canonical
remainder. -/

/-- Fuelled carry-less multiplication; fuel y suffices for multiplier y. -/
def clmulAux : Nat → Nat → Nat → Nat
  | 0, _, _ => 0
  | fuel+1, x, y =>
    if y = 0 then 0
    else (if y % 2 = 1 then x else 0) ^^^ clmulAux fuel (2 * x) (y / 2)

/-- Carry-less product of two GF(2) polynomials. -/
def clmul (x y : Nat) : Nat := clmulAux y x y

/-- Iterated carry-less power. -/
def cpow (x : Nat) : Nat → Nat
  | 0 => 1
  | n+1 => clmul x (cpow x n)

/-- Carry-less (GF(2) polynomial) divisibility. -/
def pdvd (d n : Nat) : Prop := ∃ e, clmul d e = n

/-- Canonical remainder of n modulo the polynomial m. -/
def pmodBy (m n : Nat) : Nat := (divRemT n m).2

/-! ## Basic bit and xor lemmas -/

theorem xor_shiftLeft (a b k : Nat) : (a ^^^ b) <<< k = a <<< k ^^^ b <<< k := by
  apply Nat.eq_of_testBit_eq
  intro i
  simp [Nat.testBit_shiftLeft, Nat.testBit_xor]
  by_cases h : k ≤ i <;> simp [h]

theorem two_mul_xor (a b : Nat) : 2 * (a ^^^ b) = 2 * a ^^^ 2 * b := by
  have h := xor_shiftLeft a b 1
  simpa [Nat.shiftLeft_eq, Nat.mul_comm] using h

theorem xor_shiftRight (a b k : Nat) : (a ^^^ b) >>> k = a >>> k ^^^ b >>> k := by
  apply Nat.eq_of_testBit_eq
  intro i
  simp [Nat.testBit_shiftRight, Nat.testBit_xor]

theorem xor_div_two (a b : Nat) : (a ^^^ b) / 2 = a / 2 ^^^ b / 2 := by
  have h := xor_shiftRight a b 1
  simpa [Nat.shiftRight_eq_div_pow] using h

theorem mod_two_xor (a b : Nat) : (a ^^^ b) % 2 = (a % 2) ^^^ (b % 2) := by
  have h0 : ∀ x : Nat, x % 2 = if x.testBit 0 then 1 else 0 := by
    intro x
    rcases Nat.mod_two_eq_zero_or_one x with h | h <;>
      simp [Nat.testBit_zero, h]
  rw [h0, h0, h0, Nat.testBit_xor]
  by_cases ha : a.testBit 0 <;> by_cases hb : b.testBit 0 <;> simp [ha, hb]

theorem mul_pow_two_xor (a b k : Nat) :
    (a ^^^ b) * 2 ^ k = a * 2 ^ k ^^^ b * 2 ^ k := by
  have h := xor_shiftLeft a b k
  simpa [Nat.shiftLeft_eq] using h

/-! ## Fuel irrelevance and unfolding for clmul -/

theorem clmulAux_eq_of_le :
    ∀ f g x y : Nat, y ≤ f → y ≤ g → clmulAux f x y = clmulAux g x y := by
  intro f
  induction f with
  | zero =>
    intro g x y hf _
    have : y = 0 := Nat.le_zero.mp hf
    subst this
    cases g <;> simp [clmulAux]
  | succ f ih =>
    intro g x y hf hg
    match g with
    | 0 =>
      have : y = 0 := Nat.le_zero.mp hg
      subst this
      simp [clmulAux]
    | g+1 =>
      by_cases hy : y = 0
      · simp [clmulAux, hy]
      · have hlt : y / 2 < y := Nat.div_lt_self (Nat.pos_of_ne_zero hy) (by omega)
        simp only [clmulAux, hy, if_false]
        rw [ih g (2 * x) (y / 2) (by omega) (by omega)]

theorem clmul_unfold (x y : Nat) (hy : y ≠ 0) :
    clmul x y = (if y % 2 = 1 then x else 0) ^^^ clmul (2 * x) (y / 2) := by
  obtain ⟨f, rfl⟩ : ∃ f, y = f + 1 := ⟨y - 1, by omega⟩
  show clmulAux (f + 1) x (f + 1) = _
  have hlt : (f + 1) / 2 < f + 1 := Nat.div_lt_self (by omega) (by omega)
  simp only [clmulAux, hy, if_false]
  rw [clmulAux_eq_of_le f ((f+1)/2) (2*x) ((f+1)/2) (by omega) (by omega)]
  rfl

theorem clmul_zero_right (x : Nat) : clmul x 0 = 0 := rfl

theorem clmul_zero_left (y : Nat) : clmul 0 y = 0 := by
  induction y using Nat.strong_induction_on with
  | _ y ih =>
    by_cases hy : y = 0
    · simp [hy, clmul_zero_right]
    · rw [clmul_unfold 0 y hy]
      simp only [Nat.mul_zero]
      rw [ih (y / 2) (Nat.div_lt_self (Nat.pos_of_ne_zero hy) (by omega))]
      simp

theorem clmul_one_right (x : Nat) : clmul x 1 = x := by
  rw [clmul_unfold x 1 (by omega)]
  simp [clmul_zero_right]

theorem clmul_double_left (x y : Nat) : clmul (2 * x) y = 2 * clmul x y := by
  induction y using Nat.strong_induction_on generalizing x with
  | _ y ih =>
    by_cases hy : y = 0
    · simp [hy, clmul_zero_right]
    · have hlt : y / 2 < y := Nat.div_lt_self (Nat.pos_of_ne_zero hy) (by omega)
      rw [clmul_unfold (2 * x) y hy, clmul_unfold x y hy, ih (y / 2) hlt (2 * x),
        two_mul_xor]
      congr 1
      by_cases hp : y % 2 = 1 <;> simp [hp]

theorem clmul_xor_left (a b y : Nat) :
    clmul (a ^^^ b) y = clmul a y ^^^ clmul b y := by
  induction y using Nat.strong_induction_on generalizing a b with
  | _ y ih =>
    by_cases hy : y = 0
    · simp [hy, clmul_zero_right]
    · have hlt : y / 2 < y := Nat.div_lt_self (Nat.pos_of_ne_zero hy) (by omega)
      rw [clmul_unfold (a ^^^ b) y hy, clmul_unfold a y hy, clmul_unfold b y hy,
        two_mul_xor, ih (y / 2) hlt (2 * a) (2 * b)]
      have hite : (if y % 2 = 1 then a ^^^ b else 0) =
          (if y % 2 = 1 then a else 0) ^^^ (if y % 2 = 1 then b else 0) := by
        by_cases hp : y % 2 = 1 <;> simp [hp]
      rw [hite]
      have h1 := Nat.xor_assoc
      have h2 := Nat.xor_comm
      -- rearrange (p ^^^ q) ^^^ (r ^^^ s) = (p ^^^ r) ^^^ (q ^^^ s)
      rw [Nat.xor_assoc, ← Nat.xor_assoc (if y % 2 = 1 then b else 0),
        Nat.xor_comm (if y % 2 = 1 then b else 0) (clmul (2 * a) (y / 2)),
        Nat.xor_assoc, ← Nat.xor_assoc]

theorem two_mul_xor_one (a : Nat) : 2 * a ^^^ 1 = 2 * a + 1 := by
  apply Nat.eq_of_testBit_eq
  intro i
  match i with
  | 0 => simp [Nat.testBit_zero, Nat.mul_add_mod]
  | i+1 =>
    rw [Nat.testBit_xor, Nat.testBit_add_one, Nat.testBit_add_one,
      Nat.testBit_add_one, Nat.mul_add_div (by omega),
      Nat.mul_div_cancel_left a (by omega)]
    norm_num [Nat.zero_testBit]

theorem clmul_one_left (y : Nat) : clmul 1 y = y := by
  induction y using Nat.strong_induction_on with
  | _ y ih =>
    by_cases hy : y = 0
    · simp [hy, clmul_zero_right]
    · have hlt : y / 2 < y := Nat.div_lt_self (Nat.pos_of_ne_zero hy) (by omega)
      rw [clmul_unfold 1 y hy, clmul_double_left, ih (y / 2) hlt]
      rcases Nat.mod_two_eq_zero_or_one y with h | h
      · simp only [h, Nat.zero_ne_one, if_false, Nat.zero_xor]
        omega
      · have hone : (if y % 2 = 1 then (1 : Nat) else 0) = 1 := by simp [h]
        rw [hone, Nat.xor_comm, two_mul_xor_one]
        omega

theorem clmul_decomp_left (x y : Nat) :
    clmul x y = 2 * clmul (x / 2) y ^^^ clmul (x % 2) y := by
  have hx : x = 2 * (x / 2) ^^^ x % 2 := by
    rcases Nat.mod_two_eq_zero_or_one x with h | h <;> rw [h]
    · simp
      omega
    · rw [two_mul_xor_one]
      omega
  conv_lhs => rw [hx]
  rw [clmul_xor_left, clmul_double_left]

theorem clmul_comm (x y : Nat) : clmul x y = clmul y x := by
  induction x using Nat.strong_induction_on generalizing y with
  | _ x ih =>
    by_cases hx : x = 0
    · simp [hx, clmul_zero_right, clmul_zero_left]
    · have hlt : x / 2 < x := Nat.div_lt_self (Nat.pos_of_ne_zero hx) (by omega)
      rw [clmul_decomp_left x y, clmul_unfold y x hx, clmul_double_left,
        ih (x / 2) hlt y, Nat.xor_comm]
      congr 1
      rcases Nat.mod_two_eq_zero_or_one x with h | h <;>
        simp [h, clmul_zero_left, clmul_one_left]

theorem clmul_double_right (x y : Nat) : clmul x (2 * y) = 2 * clmul x y := by
  rw [clmul_comm, clmul_double_left, clmul_comm]

theorem clmul_xor_right (x a b : Nat) :
    clmul x (a ^^^ b) = clmul x a ^^^ clmul x b := by
  rw [clmul_comm, clmul_xor_left, clmul_comm a x, clmul_comm b x]

theorem clmul_assoc (a b c : Nat) :
    clmul (clmul a b) c = clmul a (clmul b c) := by
  induction c using Nat.strong_induction_on generalizing a b with
  | _ c ih =>
    by_cases hc : c = 0
    · simp [hc, clmul_zero_right]
    · have hlt : c / 2 < c := Nat.div_lt_self (Nat.pos_of_ne_zero hc) (by omega)
      rw [clmul_unfold (clmul a b) c hc, clmul_unfold b c hc, clmul_xor_right,
        ← clmul_double_right, ih (c / 2) hlt a (2 * b)]
      congr 1
      by_cases hp : c % 2 = 1 <;> simp [hp, clmul_zero_right]

theorem clmul_two_pow_right (x k : Nat) : clmul x (2 ^ k) = x * 2 ^ k := by
  induction k with
  | zero => simp [clmul_one_right]
  | succ k ih =>
    have h : (2 : Nat) ^ (k + 1) = 2 * 2 ^ k := by ring
    rw [h, clmul_double_right, ih]
    ring

theorem clmul_two_pow_left (k y : Nat) : clmul (2 ^ k) y = y * 2 ^ k := by
  rw [clmul_comm, clmul_two_pow_right]

theorem clmul_parity (a b : Nat) : clmul a b % 2 = a % 2 * (b % 2) := by
  by_cases hb : b = 0
  · simp [hb, clmul_zero_right]
  · rw [clmul_unfold a b hb, mod_two_xor, clmul_double_left, Nat.mul_mod_right]
    rcases Nat.mod_two_eq_zero_or_one b with h | h <;> simp [h]

theorem clmul_lt_two_pow :
    ∀ q a b p : Nat, a < 2 ^ p → b < 2 ^ q → clmul a b < 2 ^ (p + q) := by
  intro q
  induction q with
  | zero =>
    intro a b p _ hb
    have hb0 : b = 0 := by omega
    subst hb0
    simpa [clmul_zero_right] using Nat.pos_pow_of_pos p (by omega)
  | succ q ih =>
    intro a b p ha hb
    by_cases hb0 : b = 0
    · subst hb0
      simpa [clmul_zero_right] using Nat.pos_pow_of_pos (p + (q+1)) (by omega)
    · rw [clmul_unfold a b hb0]
      apply Nat.xor_lt_two_pow
      · have hle : (if b % 2 = 1 then a else 0) ≤ a := by
          by_cases hp : b % 2 = 1 <;> simp [hp]
        calc (if b % 2 = 1 then a else 0) ≤ a := hle
          _ < 2 ^ p := ha
          _ ≤ 2 ^ (p + (q + 1)) := Nat.pow_le_pow_right (by omega) (by omega)
      · have h2a : 2 * a < 2 ^ (p + 1) := by
          rw [Nat.pow_succ]
          omega
        have hb2 : b / 2 < 2 ^ q := by
          rw [Nat.pow_succ] at hb
          omega
        have hmain := ih (2 * a) (b / 2) (p + 1) h2a hb2
        have hpq : p + 1 + q = p + (q + 1) := by omega
        rwa [hpq] at hmain

theorem testBit_of_interval {u k : Nat} (h1 : 2 ^ k ≤ u) (h2 : u < 2 ^ (k + 1)) :
    u.testBit k = true := by
  rw [Nat.testBit_to_div_mod]
  have hdiv : u / 2 ^ k = 1 := by
    have h3 : (2:Nat) ^ (k+1) = 2 ^ k * 2 := by ring
    rw [h3] at h2
    have hp : (0:Nat) < 2 ^ k := Nat.pos_pow_of_pos k (by omega)
    have hge : 1 ≤ u / 2 ^ k := (Nat.le_div_iff_mul_le hp).mpr (by omega)
    have hlt2 : u / 2 ^ k < 2 := (Nat.div_lt_iff_lt_mul hp).mpr (by omega)
    omega
  simp [hdiv]

theorem lt_two_pow_of_testBit_false {u k : Nat} (h2 : u < 2 ^ (k + 1))
    (hb : u.testBit k = false) : u < 2 ^ k := by
  apply Nat.lt_pow_two_of_testBit
  intro j hj
  rcases Nat.eq_or_lt_of_le hj with rfl | hlt
  · exact hb
  · exact Nat.testBit_lt_two_pow (Nat.lt_of_lt_of_le h2 (Nat.pow_le_pow_right (by omega) hlt))

theorem xor_in_interval {u v k : Nat} (h1 : 2 ^ k ≤ u) (h2 : u < 2 ^ (k + 1))
    (hv : v < 2 ^ k) : 2 ^ k ≤ (u ^^^ v) ∧ (u ^^^ v) < 2 ^ (k + 1) := by
  constructor
  · apply Nat.testBit_implies_ge
    rw [Nat.testBit_xor, testBit_of_interval h1 h2, Nat.testBit_lt_two_pow hv]
    rfl
  · exact Nat.xor_lt_two_pow h2
      (Nat.lt_of_lt_of_le hv (Nat.pow_le_pow_right (by omega) (by omega)))

theorem xor_both_top {u v k : Nat} (hu1 : 2 ^ k ≤ u) (hu2 : u < 2 ^ (k + 1))
    (hv1 : 2 ^ k ≤ v) (hv2 : v < 2 ^ (k + 1)) : u ^^^ v < 2 ^ k := by
  apply lt_two_pow_of_testBit_false (Nat.xor_lt_two_pow hu2 hv2)
  rw [Nat.testBit_xor, testBit_of_interval hu1 hu2, testBit_of_interval hv1 hv2]
  rfl

/-! ## Characterization of bitLen and get_degree -/

theorem bitLenAux_zero (f : Nat) : bitLenAux f 0 = 0 := by
  cases f <;> simp [bitLenAux]

theorem bitLenAux_spec :
    ∀ f x : Nat, x ≤ f →
      x < 2 ^ bitLenAux f x ∧
        (x ≠ 0 → 2 ^ (bitLenAux f x - 1) ≤ x ∧ 1 ≤ bitLenAux f x) := by
  intro f
  induction f with
  | zero =>
    intro x hx
    have hx0 : x = 0 := by omega
    subst hx0
    simp [bitLenAux]
  | succ f ih =>
    intro x hx
    by_cases hx0 : x = 0
    · subst hx0
      simp [bitLenAux]
    · have hdiv : x >>> 1 = x / 2 := by
        rw [Nat.shiftRight_eq_div_pow]
      have hlt : x / 2 < x := Nat.div_lt_self (Nat.pos_of_ne_zero hx0) (by omega)
      have hle : x / 2 ≤ f := by omega
      obtain ⟨h1, h2⟩ := ih (x / 2) hle
      simp only [bitLenAux, hx0, if_false, hdiv]
      constructor
      · have hup : x < 2 * 2 ^ bitLenAux f (x / 2) := by omega
        calc x < 2 * 2 ^ bitLenAux f (x / 2) := hup
          _ = 2 ^ (bitLenAux f (x / 2) + 1) := by ring
      · intro _
        refine ⟨?_, by omega⟩
        by_cases hq : x / 2 = 0
        · have hx1 : x = 1 := by omega
          subst hx1
          have h12 : (1:Nat) / 2 = 0 := rfl
          rw [h12, bitLenAux_zero]
          norm_num
        · obtain ⟨h3, h4⟩ := h2 hq
          have h5 : 2 ^ (bitLenAux f (x / 2) + 1 - 1) =
              2 * 2 ^ (bitLenAux f (x / 2) - 1) := by
            have he : bitLenAux f (x / 2) + 1 - 1 = (bitLenAux f (x / 2) - 1) + 1 := by
              omega
            rw [he]
            ring
          rw [h5]
          omega

theorem get_degree_spec {x : Nat} (hx : x ≠ 0) :
    2 ^ get_degree x ≤ x ∧ x < 2 ^ (get_degree x + 1) := by
  obtain ⟨h1, h2⟩ := bitLenAux_spec x x (Nat.le_refl x)
  obtain ⟨h3, h4⟩ := h2 hx
  have he : bitLen x - 1 + 1 = bitLen x := by
    simp only [bitLen] at h4 ⊢
    omega
  simp only [get_degree, he]
  exact ⟨h3, h1⟩

theorem get_degree_eq_of {x k : Nat} (h1 : 2 ^ k ≤ x) (h2 : x < 2 ^ (k + 1)) :
    get_degree x = k := by
  have hx : x ≠ 0 := by
    have hp : (0:Nat) < 2 ^ k := Nat.pos_pow_of_pos k (by omega)
    omega
  obtain ⟨h3, h4⟩ := get_degree_spec hx
  by_contra hne
  rcases Nat.lt_or_ge (get_degree x) k with hlt | hge
  · have hc : 2 ^ (get_degree x + 1) ≤ 2 ^ k := Nat.pow_le_pow_right (by omega) (by omega)
    omega
  · have hgt : k < get_degree x := by omega
    have hc : 2 ^ (k + 1) ≤ 2 ^ get_degree x := Nat.pow_le_pow_right (by omega) (by omega)
    omega

theorem get_degree_two_mul {a : Nat} (ha : a ≠ 0) :
    get_degree (2 * a) = get_degree a + 1 := by
  obtain ⟨h1, h2⟩ := get_degree_spec ha
  apply get_degree_eq_of
  · calc (2:Nat) ^ (get_degree a + 1) = 2 * 2 ^ get_degree a := by ring
      _ ≤ 2 * a := by omega
  · calc 2 * a < 2 * 2 ^ (get_degree a + 1) := by omega
      _ = 2 ^ (get_degree a + 1 + 1) := by ring

theorem get_degree_clmul {a b : Nat} (ha : a ≠ 0) (hb : b ≠ 0) :
    2 ^ (get_degree a + get_degree b) ≤ clmul a b ∧
      clmul a b < 2 ^ (get_degree a + get_degree b + 1) := by
  induction b using Nat.strong_induction_on generalizing a with
  | _ b ih =>
    obtain ⟨hb1, hb2⟩ := get_degree_spec hb
    by_cases hone : b = 1
    · subst hone
      have h0 : get_degree 1 = 0 := get_degree_eq_of (by norm_num) (by norm_num)
      rw [clmul_one_right, h0]
      simpa using get_degree_spec ha
    · have hb2' : 2 ≤ b := by
        rcases Nat.lt_or_ge b 2 with h | h
        · interval_cases b <;> simp_all
        · exact h
      have hdb : 1 ≤ get_degree b := by
        by_contra h
        have h0 : get_degree b = 0 := by omega
        rw [h0] at hb2
        omega
      have hblt : b / 2 < b := Nat.div_lt_self (by omega) (by omega)
      have hbne : b / 2 ≠ 0 := by omega
      have hdegb2 : get_degree (b / 2) = get_degree b - 1 := by
        apply get_degree_eq_of
        · have he : get_degree b = (get_degree b - 1) + 1 := by omega
          rw [he, Nat.pow_succ] at hb1
          omega
        · have he : get_degree b - 1 + 1 = get_degree b := by omega
          rw [he]
          rw [Nat.pow_succ] at hb2
          omega
      obtain ⟨g1, g2⟩ := ih (b / 2) hblt (a := 2 * a) (by omega) hbne
      rw [get_degree_two_mul ha, hdegb2] at g1 g2
      have harith : get_degree a + 1 + (get_degree b - 1) = get_degree a + get_degree b := by
        omega
      rw [harith] at g1 g2
      rw [clmul_unfold a b hb]
      have ht : (if b % 2 = 1 then a else 0) < 2 ^ (get_degree a + get_degree b) := by
        have ha2 := (get_degree_spec ha).2
        have hle : (if b % 2 = 1 then a else 0) ≤ a := by
          by_cases hp : b % 2 = 1 <;> simp [hp]
        have hmono : 2 ^ (get_degree a + 1) ≤ 2 ^ (get_degree a + get_degree b) :=
          Nat.pow_le_pow_right (by omega) (by omega)
        omega
      rw [Nat.xor_comm]
      exact xor_in_interval g1 g2 ht

theorem clmul_eq_zero_iff {a b : Nat} : clmul a b = 0 ↔ a = 0 ∨ b = 0 := by
  constructor
  · intro h
    by_contra hc
    push_neg at hc
    obtain ⟨ha, hb⟩ := hc
    have hlow := (get_degree_clmul ha hb).1
    have hp : (0:Nat) < 2 ^ (get_degree a + get_degree b) := Nat.pos_pow_of_pos _ (by omega)
    omega
  · rintro (rfl | rfl)
    · exact clmul_zero_left b
    · exact clmul_zero_right a

theorem clmul_cancel {d a b : Nat} (hd : d ≠ 0) (h : clmul d a = clmul d b) :
    a = b := by
  have hx : clmul d a ^^^ clmul d b = 0 := by
    rw [h, Nat.xor_self]
  rw [← clmul_xor_right] at hx
  rcases clmul_eq_zero_iff.mp hx with h1 | h1
  · exact absurd h1 hd
  · exact Nat.xor_eq_zero.mp h1

/-! ## Correctness of polynomial division -/

theorem shiftRight_and_one (x k : Nat) :
    (x >>> k) &&& 1 = if x.testBit k then 1 else 0 := by
  rw [Nat.and_one_is_mod, Nat.testBit_to_div_mod, Nat.shiftRight_eq_div_pow]
  rcases Nat.mod_two_eq_zero_or_one (x / 2 ^ k) with h | h <;> simp [h]

theorem lor_two_pow_eq_xor {z i : Nat} (hz : z.testBit i = false) :
    z ||| (1 <<< i) = z ^^^ (1 <<< i) := by
  have h1 : (1:Nat) <<< i = 2 ^ i := by
    rw [Nat.shiftLeft_eq]
    ring
  rw [h1]
  apply Nat.eq_of_testBit_eq
  intro j
  rw [Nat.testBit_lor, Nat.testBit_xor, Nat.testBit_two_pow]
  by_cases hij : i = j
  · subst hij
    simp [hz]
  · simp [hij]

theorem xor_xor_cancel (A B C : Nat) : (A ^^^ B) ^^^ (C ^^^ B) = A ^^^ C := by
  rw [Nat.xor_assoc, Nat.xor_comm C B, ← Nat.xor_assoc B B C, Nat.xor_self,
    Nat.zero_xor]

theorem divRemLoop_spec {y : Nat} (hy : y ≠ 0) :
    ∀ i x z, x < 2 ^ (get_degree y + i) →
      (∀ j, j < i → z.testBit j = false) →
      clmul (divRemLoop y (get_degree y) i x z).1 y ^^^
          (divRemLoop y (get_degree y) i x z).2 = clmul z y ^^^ x ∧
        (divRemLoop y (get_degree y) i x z).2 < 2 ^ get_degree y ∧
        ∀ N, i ≤ N → z < 2 ^ N → (divRemLoop y (get_degree y) i x z).1 < 2 ^ N := by
  intro i
  induction i with
  | zero =>
    intro x z hx hz
    refine ⟨rfl, by simpa using hx, fun N _ hzN => hzN⟩
  | succ i ih =>
    intro x z hx hz
    obtain ⟨hy1, hy2⟩ := get_degree_spec hy
    by_cases hbit : (x >>> (i + get_degree y)) &&& 1 = 1
    · -- the current bit of x is set: subtract y <<< i, record quotient bit i
      have htb : x.testBit (i + get_degree y) = true := by
        rw [shiftRight_and_one] at hbit
        by_cases h : x.testBit (i + get_degree y)
        · exact h
        · simp [h] at hbit
      have hm : x >>> (i + get_degree y) % 2 = 1 := by
        rwa [Nat.and_one_is_mod] at hbit
      have hstep : divRemLoop y (get_degree y) (i+1) x z =
          divRemLoop y (get_degree y) i (x ^^^ (y <<< i)) (z ||| (1 <<< i)) := by
        simp [divRemLoop, hm]
      have hyi1 : 2 ^ (get_degree y + i) ≤ y <<< i := by
        rw [Nat.shiftLeft_eq, Nat.pow_add]
        exact Nat.mul_le_mul_right _ hy1
      have hyi2 : y <<< i < 2 ^ (get_degree y + i + 1) := by
        rw [Nat.shiftLeft_eq]
        have hp : (0:Nat) < 2 ^ i := Nat.pos_pow_of_pos i (by omega)
        calc y * 2 ^ i < 2 ^ (get_degree y + 1) * 2 ^ i :=
              mul_lt_mul_of_pos_right hy2 hp
          _ = 2 ^ (get_degree y + i + 1) := by
              rw [← Nat.pow_add]
              congr 1
              omega
      have hx1 : 2 ^ (get_degree y + i) ≤ x := by
        have hge := Nat.testBit_implies_ge htb
        rwa [Nat.add_comm i (get_degree y)] at hge
      have hx2 : x < 2 ^ (get_degree y + i + 1) := by
        have he : get_degree y + (i + 1) = get_degree y + i + 1 := by omega
        rwa [he] at hx
      have hx' : x ^^^ (y <<< i) < 2 ^ (get_degree y + i) :=
        xor_both_top hx1 hx2 hyi1 hyi2
      have hzi : z.testBit i = false := hz i (by omega)
      have hz' : ∀ j, j < i → (z ||| (1 <<< i)).testBit j = false := by
        intro j hj
        have h1 : (1:Nat) <<< i = 2 ^ i := by
          rw [Nat.shiftLeft_eq]
          ring
        rw [h1, Nat.testBit_lor, hz j (by omega), Nat.testBit_two_pow]
        simp
        omega
      obtain ⟨e1, e2, e3⟩ := ih (x ^^^ (y <<< i)) (z ||| (1 <<< i)) hx' hz'
      rw [hstep]
      have hclz : clmul (z ||| (1 <<< i)) y = clmul z y ^^^ (y <<< i) := by
        rw [lor_two_pow_eq_xor hzi, clmul_xor_left]
        congr 1
        have h1 : (1:Nat) <<< i = 2 ^ i := by
          rw [Nat.shiftLeft_eq]
          ring
        rw [h1, clmul_two_pow_left, Nat.shiftLeft_eq]
      refine ⟨?_, e2, ?_⟩
      · rw [e1, hclz, xor_xor_cancel]
      · intro N hN hzN
        apply e3 N (by omega)
        have h1 : (1:Nat) <<< i = 2 ^ i := by
          rw [Nat.shiftLeft_eq]
          ring
        rw [h1]
        apply Nat.or_lt_two_pow hzN
        calc (2:Nat) ^ i < 2 ^ (i + 1) := by
              have := Nat.pos_pow_of_pos i (show 0 < 2 by omega)
              calc (2:Nat) ^ i < 2 ^ i * 2 := by omega
                _ = 2 ^ (i + 1) := by ring
          _ ≤ 2 ^ N := Nat.pow_le_pow_right (by omega) (by omega)
    · -- current bit clear: x and z unchanged
      have htb : x.testBit (i + get_degree y) = false := by
        rw [shiftRight_and_one] at hbit
        by_cases h : x.testBit (i + get_degree y)
        · simp [h] at hbit
        · simpa using h
      have hm : x >>> (i + get_degree y) % 2 = 0 := by
        rw [Nat.and_one_is_mod] at hbit
        omega
      have hstep : divRemLoop y (get_degree y) (i+1) x z =
          divRemLoop y (get_degree y) i x z := by
        simp [divRemLoop, hm]
      have hx2 : x < 2 ^ (get_degree y + i + 1) := by
        have he : get_degree y + (i + 1) = get_degree y + i + 1 := by omega
        rwa [he] at hx
      have htb' : x.testBit (get_degree y + i) = false := by
        rwa [Nat.add_comm i (get_degree y)] at htb
      have hx' : x < 2 ^ (get_degree y + i) := lt_two_pow_of_testBit_false hx2 htb'
      have hz' : ∀ j, j < i → z.testBit j = false := fun j hj => hz j (by omega)
      obtain ⟨e1, e2, e3⟩ := ih x z hx' hz'
      rw [hstep]
      exact ⟨e1, e2, fun N hN hzN => e3 N (by omega) hzN⟩

theorem divRemT_spec {x y : Nat} (hy : y ≠ 0) :
    clmul (divRemT x y).1 y ^^^ (divRemT x y).2 = x ∧
      (divRemT x y).2 < 2 ^ get_degree y := by
  by_cases hx : x = 0
  · subst hx
    simp [divRemT, clmul_zero_left, Nat.pos_pow_of_pos]
  · obtain ⟨hx1, hx2⟩ := get_degree_spec hx
    by_cases hdeg : get_degree x < get_degree y
    · simp only [divRemT, hx, if_false, hdeg, if_pos]
      refine ⟨by rw [clmul_zero_left, Nat.zero_xor], ?_⟩
      calc x < 2 ^ (get_degree x + 1) := hx2
        _ ≤ 2 ^ get_degree y := Nat.pow_le_pow_right (by omega) (by omega)
    · simp only [divRemT, hx, if_false, hdeg]
      have hxbound : x < 2 ^ (get_degree y + (get_degree x - get_degree y + 1)) := by
        have he : get_degree y + (get_degree x - get_degree y + 1) = get_degree x + 1 := by
          omega
        rw [he]
        exact hx2
      have hzbits : ∀ j, j < get_degree x - get_degree y + 1 → Nat.testBit 0 j = false := by
        intro j _
        exact Nat.zero_testBit j
      obtain ⟨e1, e2, _⟩ := divRemLoop_spec hy (get_degree x - get_degree y + 1) x 0
        hxbound hzbits
      rw [clmul_zero_left, Nat.zero_xor] at e1
      exact ⟨e1, e2⟩

theorem divRemT_fst_lt {x y : Nat} (hy : y ≠ 0) :
    (divRemT x y).1 < 2 ^ (get_degree x - get_degree y + 1) := by
  by_cases hx : x = 0
  · subst hx
    simp [divRemT, Nat.pos_pow_of_pos]
  · by_cases hdeg : get_degree x < get_degree y
    · simp only [divRemT, hx, if_false, hdeg, if_pos]
      exact Nat.pos_pow_of_pos _ (by omega)
    · simp only [divRemT, hx, if_false, hdeg]
      obtain ⟨hx1, hx2⟩ := get_degree_spec hx
      have hxbound : x < 2 ^ (get_degree y + (get_degree x - get_degree y + 1)) := by
        have he : get_degree y + (get_degree x - get_degree y + 1) = get_degree x + 1 := by
          omega
        rw [he]
        exact hx2
      have hzbits : ∀ j, j < get_degree x - get_degree y + 1 → Nat.testBit 0 j = false := by
        intro j _
        exact Nat.zero_testBit j
      obtain ⟨_, _, e3⟩ := divRemLoop_spec hy (get_degree x - get_degree y + 1) x 0
        hxbound hzbits
      exact e3 _ (Nat.le_refl _) (Nat.pos_pow_of_pos _ (by omega))

theorem divRem_unique {x y q r : Nat} (hy : y ≠ 0)
    (hqr : clmul q y ^^^ r = x) (hr : r < 2 ^ get_degree y) :
    (divRemT x y).1 = q ∧ (divRemT x y).2 = r := by
  obtain ⟨e1, e2⟩ := divRemT_spec (x := x) hy
  have hx : clmul ((divRemT x y).1 ^^^ q) y = (divRemT x y).2 ^^^ r := by
    rw [clmul_xor_left]
    have hcomb : (clmul (divRemT x y).1 y ^^^ (divRemT x y).2) ^^^
        (clmul q y ^^^ r) = x ^^^ x := by
      rw [e1, hqr]
    rw [Nat.xor_self] at hcomb
    have h2 : clmul (divRemT x y).1 y ^^^ clmul q y ^^^ ((divRemT x y).2 ^^^ r) = 0 := by
      calc clmul (divRemT x y).1 y ^^^ clmul q y ^^^ ((divRemT x y).2 ^^^ r)
          = (clmul (divRemT x y).1 y ^^^ (divRemT x y).2) ^^^ (clmul q y ^^^ r) := by
            rw [Nat.xor_assoc, Nat.xor_assoc]
            congr 1
            rw [← Nat.xor_assoc, ← Nat.xor_assoc, Nat.xor_comm (clmul q y)]
        _ = 0 := hcomb
    have h3 := Nat.xor_eq_zero.mp h2
    exact h3
  have hqq : (divRemT x y).1 = q := by
    by_contra hne
    have hne2 : (divRemT x y).1 ^^^ q ≠ 0 := by
      intro h0
      exact hne (Nat.xor_eq_zero.mp h0)
    have hlow := (get_degree_clmul hne2 hy).1
    have hup : (divRemT x y).2 ^^^ r < 2 ^ get_degree y := Nat.xor_lt_two_pow e2 hr
    rw [hx] at hlow
    have hmono : 2 ^ get_degree y ≤
        2 ^ (get_degree ((divRemT x y).1 ^^^ q) + get_degree y) :=
      Nat.pow_le_pow_right (by omega) (by omega)
    omega
  refine ⟨hqq, ?_⟩
  rw [hqq, Nat.xor_self, clmul_zero_left] at hx
  exact (Nat.xor_eq_zero.mp hx.symm)

/-! ## Canonical remainders modulo a polynomial -/

theorem xor_swap_pairs (A B C D : Nat) :
    (A ^^^ B) ^^^ (C ^^^ D) = (A ^^^ C) ^^^ (B ^^^ D) := by
  apply Nat.eq_of_testBit_eq
  intro i
  simp only [Nat.testBit_xor]
  cases A.testBit i <;> cases B.testBit i <;> cases C.testBit i <;>
    cases D.testBit i <;> rfl

theorem pmodBy_lt {m : Nat} (hm : m ≠ 0) (n : Nat) :
    pmodBy m n < 2 ^ get_degree m :=
  (divRemT_spec hm).2

theorem pmodBy_exists {m : Nat} (hm : m ≠ 0) (n : Nat) :
    clmul (divRemT n m).1 m ^^^ pmodBy m n = n :=
  (divRemT_spec hm).1

theorem pmodBy_unique {m q r n : Nat} (hm : m ≠ 0) (h : clmul q m ^^^ r = n)
    (hr : r < 2 ^ get_degree m) : pmodBy m n = r :=
  (divRem_unique hm h hr).2

theorem pmodBy_zero (m : Nat) : pmodBy m 0 = 0 := rfl

theorem pmodBy_eq_self {m n : Nat} (hm : m ≠ 0) (hn : n < 2 ^ get_degree m) :
    pmodBy m n = n :=
  pmodBy_unique hm (by rw [clmul_zero_left, Nat.zero_xor]) hn

theorem pmodBy_xor {m : Nat} (hm : m ≠ 0) (u v : Nat) :
    pmodBy m (u ^^^ v) = pmodBy m u ^^^ pmodBy m v := by
  apply pmodBy_unique (q := (divRemT u m).1 ^^^ (divRemT v m).1) hm
  · rw [clmul_xor_left]
    rw [xor_swap_pairs]
    rw [pmodBy_exists hm u, pmodBy_exists hm v]
  · exact Nat.xor_lt_two_pow (pmodBy_lt hm u) (pmodBy_lt hm v)

theorem pmodBy_multiple {m : Nat} (hm : m ≠ 0) (k : Nat) :
    pmodBy m (clmul k m) = 0 :=
  pmodBy_unique (q := k) hm (by rw [Nat.xor_zero]) (Nat.pos_pow_of_pos _ (by omega))

theorem pmodBy_pmodBy {m : Nat} (hm : m ≠ 0) (n : Nat) :
    pmodBy m (pmodBy m n) = pmodBy m n :=
  pmodBy_eq_self hm (pmodBy_lt hm n)

theorem pmodBy_clmul_left {m : Nat} (hm : m ≠ 0) (a b : Nat) :
    pmodBy m (clmul a b) = pmodBy m (clmul (pmodBy m a) b) := by
  have ha := pmodBy_exists hm a
  conv_lhs => rw [← ha]
  rw [clmul_xor_left, pmodBy_xor hm]
  have h1 : clmul (clmul (divRemT a m).1 m) b = clmul (clmul (divRemT a m).1 b) m := by
    rw [clmul_assoc, clmul_assoc, clmul_comm m b]
  rw [h1, pmodBy_multiple hm, Nat.zero_xor]

theorem pmodBy_clmul_right {m : Nat} (hm : m ≠ 0) (a b : Nat) :
    pmodBy m (clmul a b) = pmodBy m (clmul a (pmodBy m b)) := by
  rw [clmul_comm, pmodBy_clmul_left hm, clmul_comm]

/-! ## Divisibility facts -/

theorem pdvd_refl (d : Nat) : pdvd d d := ⟨1, clmul_one_right d⟩

theorem pdvd_zero (d : Nat) : pdvd d 0 := ⟨0, clmul_zero_right d⟩

theorem pdvd_xor {d u v : Nat} (hu : pdvd d u) (hv : pdvd d v) :
    pdvd d (u ^^^ v) := by
  obtain ⟨eu, rfl⟩ := hu
  obtain ⟨ev, rfl⟩ := hv
  exact ⟨eu ^^^ ev, by rw [clmul_xor_right]⟩

theorem pdvd_clmul {d u : Nat} (h : pdvd d u) (c : Nat) : pdvd d (clmul c u) := by
  obtain ⟨e, rfl⟩ := h
  refine ⟨clmul e c, ?_⟩
  rw [← clmul_assoc, clmul_comm c (clmul d e), clmul_assoc d e c]

theorem pdvd_trans {a b c : Nat} (hab : pdvd a b) (hbc : pdvd b c) : pdvd a c := by
  obtain ⟨e, rfl⟩ := hab
  obtain ⟨f, rfl⟩ := hbc
  exact ⟨clmul e f, by rw [clmul_assoc]⟩

theorem pdvd_one {d : Nat} (h : pdvd d 1) : d = 1 := by
  obtain ⟨e, he⟩ := h
  have hd0 : d ≠ 0 := by
    intro h0
    rw [h0, clmul_zero_left] at he
    omega
  have he0 : e ≠ 0 := by
    intro h0
    rw [h0, clmul_zero_right] at he
    omega
  have hlow := (get_degree_clmul hd0 he0).1
  rw [he] at hlow
  have hdd : get_degree d = 0 := by
    by_contra hne
    have h2 : (2:Nat) ≤ 2 ^ (get_degree d + get_degree e) := by
      calc (2:Nat) = 2 ^ 1 := by norm_num
        _ ≤ 2 ^ (get_degree d + get_degree e) := Nat.pow_le_pow_right (by omega) (by omega)
    omega
  obtain ⟨hg1, hg2⟩ := get_degree_spec hd0
  rw [hdd] at hg1 hg2
  omega

theorem pdvd_deg_le {d n : Nat} (h : pdvd d n) (hn : n ≠ 0) :
    d ≠ 0 ∧ get_degree d ≤ get_degree n := by
  obtain ⟨e, rfl⟩ := h
  have hd0 : d ≠ 0 := by
    intro h0
    rw [h0, clmul_zero_left] at hn
    exact hn rfl
  have he0 : e ≠ 0 := by
    intro h0
    rw [h0, clmul_zero_right] at hn
    exact hn rfl
  refine ⟨hd0, ?_⟩
  obtain ⟨h1, h2⟩ := get_degree_clmul hd0 he0
  have := get_degree_eq_of h1 h2
  omega

theorem pdvd_iff_pmodBy_eq_zero {m n : Nat} (hm : m ≠ 0) :
    pdvd m n ↔ pmodBy m n = 0 := by
  constructor
  · rintro ⟨e, rfl⟩
    rw [clmul_comm]
    exact pmodBy_multiple hm e
  · intro h
    refine ⟨(divRemT n m).1, ?_⟩
    have hex := pmodBy_exists hm n
    rw [h, Nat.xor_zero] at hex
    rw [clmul_comm]
    exact hex

theorem pdvd_parity {d n : Nat} (h : pdvd d n) (hn : n % 2 = 1) : d % 2 = 1 := by
  obtain ⟨e, rfl⟩ := h
  have := clmul_parity d e
  rcases Nat.mod_two_eq_zero_or_one d with h1 | h1
  · rw [h1] at this
    omega
  · exact h1

theorem odd_pdvd_two_pow {d : Nat} (hd : d % 2 = 1) :
    ∀ s, pdvd d (2 ^ s) → d = 1 := by
  intro s
  induction s with
  | zero => exact fun h => pdvd_one h
  | succ s ih =>
    rintro ⟨e, he⟩
    have heven : e % 2 = 0 := by
      have hp := clmul_parity d e
      rw [he] at hp
      have h2 : (2:Nat) ^ (s+1) % 2 = 0 := by
        rw [Nat.pow_succ, Nat.mul_mod_left]
      rw [hd] at hp
      omega
    have hsplit : e = 2 * (e / 2) := by omega
    rw [hsplit, clmul_double_right] at he
    have hhalf : clmul d (e / 2) = 2 ^ s := by
      have h2 : (2:Nat) ^ (s+1) = 2 * 2 ^ s := by ring
      omega
    exact ih ⟨e / 2, hhalf⟩

/-! ## Correctness of multiply_mod -/

theorem shiftLeft_one (x : Nat) : x <<< 1 = 2 * x := by
  rw [Nat.shiftLeft_eq]
  ring

theorem shiftRight_one (x : Nat) : x >>> 1 = x / 2 := by
  rw [Nat.shiftRight_eq_div_pow]

theorem POLYNOMIAL_ne_zero : POLYNOMIAL ≠ 0 := by
  norm_num [POLYNOMIAL]

theorem POLYNOMIAL_bounds : 2 ^ 32 ≤ POLYNOMIAL ∧ POLYNOMIAL < 2 ^ 33 := by
  norm_num [POLYNOMIAL]

theorem get_degree_POLYNOMIAL : get_degree POLYNOMIAL = 32 :=
  get_degree_eq_of POLYNOMIAL_bounds.1 POLYNOMIAL_bounds.2

theorem get_degree_div_two {b : Nat} (hb : 2 ≤ b) :
    get_degree (b / 2) = get_degree b - 1 := by
  have hbne : b ≠ 0 := by omega
  obtain ⟨hb1, hb2⟩ := get_degree_spec hbne
  have hdb : 1 ≤ get_degree b := by
    by_contra h
    have h0 : get_degree b = 0 := by omega
    rw [h0] at hb2
    omega
  apply get_degree_eq_of
  · have he : get_degree b = (get_degree b - 1) + 1 := by omega
    rw [he, Nat.pow_succ] at hb1
    omega
  · have he : get_degree b - 1 + 1 = get_degree b := by omega
    rw [he]
    rw [Nat.pow_succ] at hb2
    omega

/-- One doubling-and-reduction step of multiply_mod computes the canonical
residue of twice the argument. -/
theorem reduce_step {x : Nat} (hx : x < 2 ^ 32) :
    (if ((x <<< 1) >>> 32) &&& 1 = 1 then (x <<< 1) ^^^ POLYNOMIAL
      else x <<< 1) = pmodBy POLYNOMIAL (2 * x) ∧
    (if ((x <<< 1) >>> 32) &&& 1 = 1 then (x <<< 1) ^^^ POLYNOMIAL
      else x <<< 1) < 2 ^ 32 := by
  rw [shiftLeft_one, shiftRight_and_one]
  by_cases hb : (2 * x).testBit 32
  · have h1 : 2 ^ 32 ≤ 2 * x := Nat.testBit_implies_ge hb
    have h2 : 2 * x < 2 ^ 33 := by
      have h3 : (2:Nat) ^ 33 = 2 * 2 ^ 32 := by ring
      omega
    have hr : 2 * x ^^^ POLYNOMIAL < 2 ^ 32 :=
      xor_both_top h1 h2 POLYNOMIAL_bounds.1 POLYNOMIAL_bounds.2
    have hpm : pmodBy POLYNOMIAL (2 * x) = 2 * x ^^^ POLYNOMIAL := by
      apply pmodBy_unique (q := 1) POLYNOMIAL_ne_zero
      · rw [clmul_one_left, Nat.xor_comm (2*x) POLYNOMIAL, ← Nat.xor_assoc,
          Nat.xor_self, Nat.zero_xor]
      · rw [get_degree_POLYNOMIAL]
        exact hr
    constructor
    · simp [hb, hpm]
    · simpa [hb] using hr
  · have hb' : (2 * x).testBit 32 = false := by simpa using hb
    have h2 : 2 * x < 2 ^ 33 := by
      have h3 : (2:Nat) ^ 33 = 2 * 2 ^ 32 := by ring
      omega
    have hlt : 2 * x < 2 ^ 32 := lt_two_pow_of_testBit_false h2 hb'
    have hpm : pmodBy POLYNOMIAL (2 * x) = 2 * x := by
      apply pmodBy_eq_self POLYNOMIAL_ne_zero
      rw [get_degree_POLYNOMIAL]
      exact hlt
    constructor
    · simp [hb', hpm]
    · simpa [hb'] using hlt

theorem mulModLoop_spec :
    ∀ fuel y x z, y < fuel → x < 2 ^ 32 →
      mulModLoop fuel x y z = z ^^^ pmodBy POLYNOMIAL (clmul x y) := by
  intro fuel
  induction fuel with
  | zero => intro y x z hy; omega
  | succ fuel ih =>
    intro y x z hy hx
    by_cases hy0 : y = 0
    · subst hy0
      simp [mulModLoop, clmul_zero_right, pmodBy_zero]
    · have hym : y >>> 1 = y / 2 := shiftRight_one y
      have hstep : mulModLoop (fuel+1) x y z =
          mulModLoop fuel
            (if ((x <<< 1) >>> 32) &&& 1 = 1 then (x <<< 1) ^^^ POLYNOMIAL
              else x <<< 1)
            (y / 2)
            (if y % 2 = 1 then z ^^^ x else z) := by
        simp only [mulModLoop, hy0, if_false, hym, Nat.and_one_is_mod]
      obtain ⟨hred, hredlt⟩ := reduce_step hx
      rw [hred] at hredlt
      rw [hstep, hred]
      have hy2 : y / 2 < fuel := by
        have := Nat.div_lt_self (Nat.pos_of_ne_zero hy0) (show 1 < 2 by omega)
        omega
      rw [ih (y / 2) (pmodBy POLYNOMIAL (2 * x))
        (if y % 2 = 1 then z ^^^ x else z) hy2 hredlt]
      have hcl : pmodBy POLYNOMIAL (clmul (pmodBy POLYNOMIAL (2 * x)) (y / 2)) =
          pmodBy POLYNOMIAL (clmul (2 * x) (y / 2)) :=
        (pmodBy_clmul_left POLYNOMIAL_ne_zero (2 * x) (y / 2)).symm
      rw [hcl, clmul_unfold x y hy0, pmodBy_xor POLYNOMIAL_ne_zero, clmul_double_left]
      by_cases hp : y % 2 = 1
      · simp only [hp, if_pos]
        rw [pmodBy_eq_self (n := x) POLYNOMIAL_ne_zero
          (by rw [get_degree_POLYNOMIAL]; exact hx)]
        rw [Nat.xor_assoc]
      · simp only [hp, if_neg, if_false]
        rw [pmodBy_zero, Nat.zero_xor]

theorem multiply_mod_spec {x : Nat} (hx : x < 2 ^ 32) (y : Nat) :
    multiply_mod x y = pmodBy POLYNOMIAL (clmul x y) := by
  have h := mulModLoop_spec (y+1) y x 0 (by omega) hx
  rw [Nat.zero_xor] at h
  exact h

theorem multiply_mod_lt {x : Nat} (hx : x < 2 ^ 32) (y : Nat) :
    multiply_mod x y < 2 ^ 32 := by
  rw [multiply_mod_spec hx y]
  have := pmodBy_lt POLYNOMIAL_ne_zero (clmul x y)
  rwa [get_degree_POLYNOMIAL] at this

theorem mulModLoop_no_reduction :
    ∀ fuel y x z, y < fuel → (y = 0 ∨ x * 2 ^ get_degree y < 2 ^ 32) →
      mulModLoop fuel x y z = z ^^^ clmul x y := by
  intro fuel
  induction fuel with
  | zero => intro y x z hy; omega
  | succ fuel ih =>
    intro y x z hy hcond
    by_cases hy0 : y = 0
    · subst hy0
      simp [mulModLoop, clmul_zero_right]
    · have hxb : x * 2 ^ get_degree y < 2 ^ 32 := by
        rcases hcond with h | h
        · exact absurd h hy0
        · exact h
      have hym : y >>> 1 = y / 2 := shiftRight_one y
      have hy2 : y / 2 < fuel := by
        have := Nat.div_lt_self (Nat.pos_of_ne_zero hy0) (show 1 < 2 by omega)
        omega
      by_cases hy1 : y = 1
      · subst hy1
        have hx32 : x < 2 ^ 32 := by
          have h0 : get_degree 1 = 0 := get_degree_eq_of (by norm_num) (by norm_num)
          rw [h0] at hxb
          simpa using hxb
        have hstep : mulModLoop (fuel+1) x 1 z =
            mulModLoop fuel
              (if ((x <<< 1) >>> 32) &&& 1 = 1 then (x <<< 1) ^^^ POLYNOMIAL
                else x <<< 1) 0 (z ^^^ x) := by
          simp [mulModLoop]
        rw [hstep]
        have hz : ∀ w, mulModLoop fuel w 0 (z ^^^ x) = z ^^^ x := by
          intro w
          cases fuel <;> simp [mulModLoop]
        rw [hz, clmul_one_right]
      · have h2y : 2 ≤ y := by omega
        have hdy : 1 ≤ get_degree y := by
          obtain ⟨g1, g2⟩ := get_degree_spec hy0
          by_contra h
          have h0 : get_degree y = 0 := by omega
          rw [h0] at g2
          omega
        have h2x : 2 * x < 2 ^ 32 := by
          have hmono : 2 * x ≤ x * 2 ^ get_degree y := by
            have h2 : (2:Nat) ≤ 2 ^ get_degree y := by
              calc (2:Nat) = 2 ^ 1 := by norm_num
                _ ≤ 2 ^ get_degree y := Nat.pow_le_pow_right (by omega) hdy
            calc 2 * x = x * 2 := by ring
              _ ≤ x * 2 ^ get_degree y := Nat.mul_le_mul_left x h2
          omega
        -- the shifted value has bit 32 clear, so no reduction happens
        have hb : ((x <<< 1) >>> 32) &&& 1 ≠ 1 := by
          rw [shiftLeft_one, shiftRight_and_one]
          have : (2 * x).testBit 32 = false := Nat.testBit_lt_two_pow h2x
          simp [this]
        have hstep : mulModLoop (fuel+1) x y z =
            mulModLoop fuel (x <<< 1) (y / 2)
              (if y % 2 = 1 then z ^^^ x else z) := by
          simp only [mulModLoop, hy0, if_false, hym, Nat.and_one_is_mod]
          rw [Nat.and_one_is_mod] at hb
          simp only [if_neg hb]
        rw [hstep, shiftLeft_one]
        have hcond2 : y / 2 = 0 ∨ 2 * x * 2 ^ get_degree (y / 2) < 2 ^ 32 := by
          right
          rw [get_degree_div_two h2y]
          have he : 2 * x * 2 ^ (get_degree y - 1) = x * (2 * 2 ^ (get_degree y - 1)) := by
            ring
          have he2 : 2 * 2 ^ (get_degree y - 1) = 2 ^ get_degree y := by
            have h3 : get_degree y = (get_degree y - 1) + 1 := by omega
            calc 2 * 2 ^ (get_degree y - 1) = 2 ^ ((get_degree y - 1) + 1) := by ring
              _ = 2 ^ get_degree y := by rw [← h3]
          rw [he, he2]
          exact hxb
        rw [ih (y / 2) (2 * x) (if y % 2 = 1 then z ^^^ x else z) hy2 hcond2]
        rw [clmul_unfold x y hy0, clmul_double_left]
        by_cases hp : y % 2 = 1
        · simp only [hp, if_pos]
          rw [Nat.xor_assoc]
        · simp only [hp, if_neg, if_false]
          rw [Nat.zero_xor]

theorem multiply_mod_no_reduction {x y : Nat}
    (h : y = 0 ∨ x * 2 ^ get_degree y < 2 ^ 32) :
    multiply_mod x y = clmul x y := by
  have hm := mulModLoop_no_reduction (y+1) y x 0 (by omega) h
  rw [Nat.zero_xor] at hm
  exact hm

/-! ## Correctness of pow_mod -/

theorem pmodBy_cpow {m : Nat} (hm : m ≠ 0) (x n : Nat) :
    pmodBy m (cpow (pmodBy m x) n) = pmodBy m (cpow x n) := by
  induction n with
  | zero => rfl
  | succ n ih =>
    show pmodBy m (clmul (pmodBy m x) (cpow (pmodBy m x) n)) =
      pmodBy m (clmul x (cpow x n))
    rw [← pmodBy_clmul_left hm, pmodBy_clmul_right hm, ih, ← pmodBy_clmul_right hm]

theorem cpow_two_mul (x n : Nat) : cpow x (2 * n) = cpow (clmul x x) n := by
  induction n with
  | zero => rfl
  | succ n ih =>
    have he : 2 * (n + 1) = (2 * n) + 1 + 1 := by omega
    rw [he]
    show clmul x (cpow x (2 * n + 1)) = clmul (clmul x x) (cpow (clmul x x) n)
    show clmul x (clmul x (cpow x (2 * n))) = clmul (clmul x x) (cpow (clmul x x) n)
    rw [ih, clmul_assoc]

theorem cpow_two (s : Nat) : cpow 2 s = 2 ^ s := by
  induction s with
  | zero => rfl
  | succ s ih =>
    show clmul 2 (cpow 2 s) = 2 ^ (s + 1)
    have h2 : (2:Nat) = 2 * 1 := by norm_num
    rw [ih, h2, clmul_double_left, clmul_one_left]
    ring

theorem get_degree_lt_of_lt {x k : Nat} (hx : x ≠ 0) (h : x < 2 ^ k) :
    get_degree x < k := by
  obtain ⟨h1, _⟩ := get_degree_spec hx
  by_contra hc
  have hmono : 2 ^ k ≤ 2 ^ get_degree x := Nat.pow_le_pow_right (by omega) (by omega)
  omega

theorem powModLoop_spec :
    ∀ fuel y x z, y < fuel → x < 2 ^ 32 → z < 2 ^ 32 →
      powModLoop fuel x y z = pmodBy POLYNOMIAL (clmul z (cpow x y)) := by
  intro fuel
  induction fuel with
  | zero => intro y x z hy; omega
  | succ fuel ih =>
    intro y x z hy hx hz
    by_cases hy0 : y = 0
    · subst hy0
      show z = pmodBy POLYNOMIAL (clmul z 1)
      rw [clmul_one_right,
        pmodBy_eq_self POLYNOMIAL_ne_zero (by rw [get_degree_POLYNOMIAL]; exact hz)]
    · have hym : y >>> 1 = y / 2 := shiftRight_one y
      have hstep : powModLoop (fuel+1) x y z =
          powModLoop fuel (multiply_mod x x) (y / 2)
            (if y % 2 = 1 then multiply_mod z x else z) := by
        simp only [powModLoop, hy0, if_false, hym, Nat.and_one_is_mod]
      have hy2 : y / 2 < fuel := by
        have := Nat.div_lt_self (Nat.pos_of_ne_zero hy0) (show 1 < 2 by omega)
        omega
      have hxx : multiply_mod x x < 2 ^ 32 := multiply_mod_lt hx x
      have hz' : (if y % 2 = 1 then multiply_mod z x else z) < 2 ^ 32 := by
        by_cases hp : y % 2 = 1
        · simp only [hp, if_pos]
          exact multiply_mod_lt hz x
        · simpa [hp] using hz
      rw [hstep, ih (y / 2) (multiply_mod x x)
        (if y % 2 = 1 then multiply_mod z x else z) hy2 hxx hz']
      rw [multiply_mod_spec hx x]
      rw [pmodBy_clmul_right POLYNOMIAL_ne_zero, pmodBy_cpow POLYNOMIAL_ne_zero,
        ← pmodBy_clmul_right POLYNOMIAL_ne_zero, ← cpow_two_mul]
      by_cases hp : y % 2 = 1
      · simp only [hp, if_pos]
        rw [multiply_mod_spec hz x, ← pmodBy_clmul_left POLYNOMIAL_ne_zero]
        have hsplit : clmul (clmul z x) (cpow x (2 * (y / 2))) =
            clmul z (cpow x y) := by
          rw [clmul_assoc]
          congr 1
          have he : y = 2 * (y / 2) + 1 := by omega
          conv_rhs => rw [he]
          rfl
        rw [hsplit]
      · simp only [hp, if_neg, if_false]
        have he : y = 2 * (y / 2) := by omega
        rw [← he]

theorem pow_mod_spec {x : Nat} (hx : x < 2 ^ 32) (y : Nat) :
    pow_mod x y = pmodBy POLYNOMIAL (cpow x y) := by
  have h := powModLoop_spec (y+1) y x 1 (by omega) hx (by norm_num)
  rw [clmul_one_left] at h
  exact h

theorem pow_mod_two_eq (s : Nat) : pow_mod 2 s = pmodBy POLYNOMIAL (2 ^ s) := by
  rw [pow_mod_spec (by norm_num) s, cpow_two]

theorem pow_mod_two_lt (s : Nat) : pow_mod 2 s < 2 ^ 32 := by
  rw [pow_mod_two_eq]
  have := pmodBy_lt POLYNOMIAL_ne_zero (2 ^ s)
  rwa [get_degree_POLYNOMIAL] at this

/-! ## Correctness of reciprocal_mod (extended Euclid) -/

theorem recipLoop_spec (X0 : Nat) :
    ∀ fuel x y a b, y < fuel → x ≠ 0 → x < 2 ^ 33 → y < 2 ^ 32 →
      (2 ^ 32 ≤ x → 2 ≤ y) →
      a < 2 ^ 32 → b < 2 ^ 32 →
      pmodBy POLYNOMIAL (clmul a X0) = pmodBy POLYNOMIAL x →
      pmodBy POLYNOMIAL (clmul b X0) = pmodBy POLYNOMIAL y →
      (∀ d, (pdvd d x ∧ pdvd d y) ↔ (pdvd d POLYNOMIAL ∧ pdvd d X0)) →
      (∀ d, pdvd d POLYNOMIAL → pdvd d X0 → d = 1) →
      ∃ r, recipLoop fuel x y a b = .ok r ∧ r < 2 ^ 32 ∧
        pmodBy POLYNOMIAL (clmul r X0) = 1 := by
  intro fuel
  induction fuel with
  | zero => intro x y a b hy; omega
  | succ fuel ih =>
    intro x y a b hfy hx0 hx33 hy32 hbig ha hb hba hbb hdiv hcop
    by_cases hy0 : y = 0
    · subst hy0
      have hxone : x = 1 := by
        have hxx : pdvd x x ∧ pdvd x 0 := ⟨pdvd_refl x, pdvd_zero x⟩
        obtain ⟨hp, hq⟩ := (hdiv x).mp hxx
        exact hcop x hp hq
      subst hxone
      refine ⟨a, by simp [recipLoop], ha, ?_⟩
      rw [hba, pmodBy_eq_self POLYNOMIAL_ne_zero]
      rw [get_degree_POLYNOMIAL]
      norm_num
    · have hstep : recipLoop (fuel+1) x y a b =
          recipLoop fuel y (divRemT x y).2 b
            (a ^^^ multiply_mod (divRemT x y).1 b) := by
        simp [recipLoop, hy0]
      obtain ⟨hdr1, hdr2⟩ := divRemT_spec (x := x) hy0
      have hydeg := get_degree_spec hy0
      have hr_lt_y : (divRemT x y).2 < y := by
        calc (divRemT x y).2 < 2 ^ get_degree y := hdr2
          _ ≤ y := hydeg.1
      have hq32 : (divRemT x y).1 < 2 ^ 32 := by
        have hq := divRemT_fst_lt (x := x) hy0
        have hdx : get_degree x ≤ 32 := by
          have := get_degree_lt_of_lt hx0 hx33
          omega
        have hexp : get_degree x - get_degree y + 1 ≤ 32 := by
          by_cases hxbig : 2 ^ 32 ≤ x
          · have h2y : 2 ≤ y := hbig hxbig
            have hdy : 1 ≤ get_degree y := by
              obtain ⟨g1, g2⟩ := hydeg
              by_contra hcon
              have h0 : get_degree y = 0 := by omega
              rw [h0] at g2
              omega
            omega
          · have hdx31 : get_degree x < 32 :=
              get_degree_lt_of_lt hx0 (by omega)
            omega
        calc (divRemT x y).1 < 2 ^ (get_degree x - get_degree y + 1) := hq
          _ ≤ 2 ^ 32 := Nat.pow_le_pow_right (by omega) hexp
      have hmm32 : multiply_mod (divRemT x y).1 b < 2 ^ 32 :=
        multiply_mod_lt hq32 b
      have hc32 : a ^^^ multiply_mod (divRemT x y).1 b < 2 ^ 32 :=
        Nat.xor_lt_two_pow ha hmm32
      have hrx : (divRemT x y).2 = x ^^^ clmul (divRemT x y).1 y := by
        have h1 : clmul (divRemT x y).1 y ^^^ (divRemT x y).2 ^^^
            clmul (divRemT x y).1 y = x ^^^ clmul (divRemT x y).1 y := by
          rw [hdr1]
        rw [Nat.xor_comm (clmul (divRemT x y).1 y) ((divRemT x y).2),
          Nat.xor_assoc, Nat.xor_self, Nat.xor_zero] at h1
        exact h1
      have hbc : pmodBy POLYNOMIAL (clmul (a ^^^ multiply_mod (divRemT x y).1 b) X0)
          = pmodBy POLYNOMIAL (divRemT x y).2 := by
        rw [clmul_xor_left, pmodBy_xor POLYNOMIAL_ne_zero, hba]
        rw [multiply_mod_spec hq32 b, pmodBy_clmul_left POLYNOMIAL_ne_zero,
          pmodBy_pmodBy POLYNOMIAL_ne_zero, ← pmodBy_clmul_left POLYNOMIAL_ne_zero]
        rw [clmul_assoc, pmodBy_clmul_right POLYNOMIAL_ne_zero, hbb,
          ← pmodBy_clmul_right POLYNOMIAL_ne_zero]
        rw [hrx, pmodBy_xor POLYNOMIAL_ne_zero]
      have hdiv' : ∀ d, (pdvd d y ∧ pdvd d (divRemT x y).2) ↔
          (pdvd d POLYNOMIAL ∧ pdvd d X0) := by
        intro d
        constructor
        · rintro ⟨hdy, hdr⟩
          apply (hdiv d).mp
          refine ⟨?_, hdy⟩
          have hdx : pdvd d x := by
            have h2 : x = clmul (divRemT x y).1 y ^^^ (divRemT x y).2 := hdr1.symm
            rw [h2]
            exact pdvd_xor (pdvd_clmul hdy _) hdr
          exact hdx
        · intro hpx
          obtain ⟨hdx, hdy⟩ := (hdiv d).mpr hpx
          refine ⟨hdy, ?_⟩
          rw [hrx]
          exact pdvd_xor hdx (pdvd_clmul hdy _)
      obtain ⟨r, hr1, hr2, hr3⟩ := ih y (divRemT x y).2 b
        (a ^^^ multiply_mod (divRemT x y).1 b)
        (by omega) hy0 (by omega)
        (by omega)
        (fun hcon => absurd hcon (by omega))
        hb hc32 hbb hbc hdiv' hcop
      exact ⟨r, by rw [hstep]; exact hr1, hr2, hr3⟩

theorem reciprocal_mod_spec {X0 : Nat} (h0 : X0 ≠ 0) (h32 : X0 < 2 ^ 32)
    (hcop : ∀ d, pdvd d POLYNOMIAL → pdvd d X0 → d = 1) :
    ∃ r, reciprocal_mod X0 = .ok r ∧ r < 2 ^ 32 ∧
      pmodBy POLYNOMIAL (clmul r X0) = 1 := by
  by_cases h1 : X0 = 1
  · subst h1
    refine ⟨1, rfl, by norm_num, ?_⟩
    rw [clmul_one_left, pmodBy_eq_self POLYNOMIAL_ne_zero]
    rw [get_degree_POLYNOMIAL]
    norm_num
  · have hPmod : pmodBy POLYNOMIAL POLYNOMIAL = 0 := by
      have h := pmodBy_multiple POLYNOMIAL_ne_zero 1
      rwa [clmul_one_left] at h
    apply recipLoop_spec X0 (X0 + 1) POLYNOMIAL X0 0 1
    · omega
    · exact POLYNOMIAL_ne_zero
    · exact POLYNOMIAL_bounds.2
    · exact h32
    · intro _
      omega
    · norm_num
    · norm_num
    · rw [clmul_zero_left, pmodBy_zero, hPmod]
    · rw [clmul_one_left]
    · intro d
      exact Iff.rfl
    · exact hcop

/-! ## Characterization of reverse32 -/

/-- Specification-side mirror of the reverse32 loop: reversal of the low n
bits of a value. -/
def revBits : Nat → Nat → Nat
  | 0, _ => 0
  | n+1, x => x % 2 * 2 ^ n + revBits n (x / 2)

theorem revBits_lt : ∀ n x, revBits n x < 2 ^ n := by
  intro n
  induction n with
  | zero => intro x; simp [revBits]
  | succ n ih =>
    intro x
    have h1 := ih (x / 2)
    have h2 : x % 2 * 2 ^ n ≤ 2 ^ n := by
      rcases Nat.mod_two_eq_zero_or_one x with h | h <;> simp [h]
    have h3 : (2:Nat) ^ (n+1) = 2 ^ n + 2 ^ n := by ring
    simp only [revBits]
    omega

theorem two_mul_lor_one (a : Nat) : 2 * a ||| 1 = 2 * a + 1 := by
  have h1 : 2 * a ||| 1 = 2 * a ^^^ 1 := by
    apply Nat.eq_of_testBit_eq
    intro i
    rw [Nat.testBit_lor, Nat.testBit_xor]
    match i with
    | 0 => simp [Nat.testBit_zero, Nat.mul_add_mod]
    | i+1 =>
      have h2 : Nat.testBit 1 (i+1) = false :=
        Nat.testBit_lt_two_pow (Nat.one_lt_two_pow (by omega))
      simp [h2]
  rw [h1, two_mul_xor_one]

theorem rev32Loop_eq : ∀ n x y, rev32Loop n x y = y * 2 ^ n + revBits n x := by
  intro n
  induction n with
  | zero => intro x y; simp [rev32Loop, revBits]
  | succ n ih =>
    intro x y
    show rev32Loop n (x >>> 1) ((y <<< 1) ||| (x &&& 1)) = _
    rw [shiftRight_one, shiftLeft_one, Nat.and_one_is_mod, ih]
    have hor : 2 * y ||| x % 2 = 2 * y + x % 2 := by
      rcases Nat.mod_two_eq_zero_or_one x with h | h
      · simp [h]
      · rw [h, two_mul_lor_one]
    rw [hor]
    simp only [revBits]
    ring

theorem reverse32_eq (x : Nat) : reverse32 x = revBits 32 x := by
  show rev32Loop 32 x 0 = _
  rw [rev32Loop_eq]
  simp

theorem revBits_testBit :
    ∀ n x k, (revBits n x).testBit k = if k < n then x.testBit (n - 1 - k) else false := by
  intro n
  induction n with
  | zero =>
    intro x k
    simp [revBits]
  | succ n ih =>
    intro x k
    have hr := revBits_lt n (x / 2)
    rcases Nat.lt_trichotomy k n with hk | hk | hk
    · -- low bits come from revBits n (x / 2)
      have hd : (x % 2 * 2 ^ n + revBits n (x / 2)) / 2 ^ k % 2 =
          revBits n (x / 2) / 2 ^ k % 2 := by
        have hsplit : x % 2 * 2 ^ n = x % 2 * 2 ^ (n - k) * 2 ^ k := by
          rw [Nat.mul_assoc, ← Nat.pow_add]
          congr 2
          omega
        rw [hsplit]
        have hpos : (0:Nat) < 2 ^ k := Nat.pos_pow_of_pos k (by omega)
        have hstep2 : (x % 2 * 2 ^ (n - k) * 2 ^ k + revBits n (x / 2)) / 2 ^ k =
            revBits n (x / 2) / 2 ^ k + x % 2 * 2 ^ (n - k) := by
          rw [Nat.add_comm, Nat.add_mul_div_right _ _ hpos]
        rw [hstep2]
        have heven : x % 2 * 2 ^ (n - k) % 2 = 0 := by
          have he : n - k = (n - k - 1) + 1 := by omega
          have h2 : (2:Nat) ^ (n - k) = 2 * 2 ^ (n - k - 1) := by
            calc (2:Nat) ^ (n - k) = 2 ^ ((n - k - 1) + 1) := by rw [← he]
              _ = 2 * 2 ^ (n - k - 1) := by ring
          have h3 : x % 2 * 2 ^ (n - k) = 2 * (x % 2 * 2 ^ (n - k - 1)) := by
            rw [h2]
            ring
          rw [h3, Nat.mul_mod_right]
        generalize hB : x % 2 * 2 ^ (n - k) = B at heven ⊢
        omega
      have hgoal1 : (revBits (n+1) x).testBit k = (revBits n (x / 2)).testBit k := by
        show (x % 2 * 2 ^ n + revBits n (x / 2)).testBit k = _
        rw [Nat.testBit_to_div_mod, Nat.testBit_to_div_mod, hd]
      rw [hgoal1, ih (x / 2) k]
      have h1 : k < n + 1 := by omega
      have h2 : n + 1 - 1 - k = n - k := by omega
      have h3 : n - 1 - k + 1 = n - k := by omega
      simp only [hk, if_pos, h1, h2]
      rw [← Nat.testBit_add_one, h3]
    · -- bit n is the low bit of x
      subst hk
      have hr2 : revBits k (x / 2) / 2 ^ k = 0 := Nat.div_eq_of_lt hr
      have hd : (x % 2 * 2 ^ k + revBits k (x / 2)) / 2 ^ k = x % 2 := by
        rw [Nat.mul_comm (x % 2) (2 ^ k),
          Nat.mul_add_div (Nat.pos_pow_of_pos k (by omega)), hr2]
        omega
      have hgoal : (revBits (k+1) x).testBit k = decide (x % 2 = 1) := by
        show (x % 2 * 2 ^ k + revBits k (x / 2)).testBit k = _
        rw [Nat.testBit_to_div_mod, hd]
        have h3 : x % 2 % 2 = x % 2 := by omega
        rw [h3]
      rw [hgoal]
      have h1 : k < k + 1 := by omega
      have h2 : k + 1 - 1 - k = 0 := by omega
      simp only [h1, if_pos, h2, Nat.testBit_zero]
    · -- bits above n are zero
      have hv : x % 2 * 2 ^ n + revBits n (x / 2) < 2 ^ (n + 1) := by
        have h2 : x % 2 * 2 ^ n ≤ 2 ^ n := by
          rcases Nat.mod_two_eq_zero_or_one x with h | h <;> simp [h]
        have h3 : (2:Nat) ^ (n+1) = 2 ^ n + 2 ^ n := by ring
        omega
      have hfalse : (x % 2 * 2 ^ n + revBits n (x / 2)).testBit k = false := by
        apply Nat.testBit_lt_two_pow
        calc x % 2 * 2 ^ n + revBits n (x / 2) < 2 ^ (n+1) := hv
          _ ≤ 2 ^ k := Nat.pow_le_pow_right (by omega) (by omega)
      simp only [revBits, hfalse]
      have h1 : ¬(k < n + 1) := by omega
      simp [h1]

theorem reverse32_testBit {x k : Nat} (hk : k < 32) :
    (reverse32 x).testBit k = x.testBit (31 - k) := by
  rw [reverse32_eq, revBits_testBit]
  have h2 : (32:Nat) - 1 - k = 31 - k := by omega
  rw [h2]
  simp [hk]

theorem reverse32_testBit_high {x k : Nat} (hk : 32 ≤ k) :
    (reverse32 x).testBit k = false := by
  rw [reverse32_eq, revBits_testBit]
  have h1 : ¬(k < 32) := by omega
  simp [h1]

theorem reverse32_lt (x : Nat) : reverse32 x < 2 ^ 32 := by
  rw [reverse32_eq]
  exact revBits_lt 32 x

theorem reverse32_reverse32 {x : Nat} (hx : x < 2 ^ 32) :
    reverse32 (reverse32 x) = x := by
  apply Nat.eq_of_testBit_eq
  intro k
  by_cases hk : k < 32
  · rw [reverse32_testBit hk, reverse32_testBit (by omega)]
    congr 1
    omega
  · rw [reverse32_testBit_high (by omega)]
    symm
    apply Nat.testBit_lt_two_pow
    calc x < 2 ^ 32 := hx
      _ ≤ 2 ^ k := Nat.pow_le_pow_right (by omega) (by omega)

theorem reverse32_xor (u v : Nat) :
    reverse32 (u ^^^ v) = reverse32 u ^^^ reverse32 v := by
  apply Nat.eq_of_testBit_eq
  intro k
  rw [Nat.testBit_xor]
  by_cases hk : k < 32
  · rw [reverse32_testBit hk, reverse32_testBit hk, reverse32_testBit hk,
      Nat.testBit_xor]
  · rw [reverse32_testBit_high (by omega), reverse32_testBit_high (by omega),
      reverse32_testBit_high (by omega)]
    rfl

/-! ## The reflected CRC round corresponds to multiplication by x mod the
generator -/

theorem reverse32_div_two {d : Nat} (hd : d < 2 ^ 32) :
    reverse32 (d / 2) =
      if d % 2 = 1 then 2 * reverse32 d ^^^ 2 ^ 32 else 2 * reverse32 d := by
  have hbit31 : (reverse32 d).testBit 31 = d.testBit 0 := by
    rw [reverse32_testBit (by omega)]
  have h2u : ∀ k, (2 * reverse32 d).testBit k =
      if k = 0 then false else (reverse32 d).testBit (k - 1) := by
    intro k
    match k with
    | 0 => simp [Nat.testBit_zero, Nat.mul_add_mod]
    | k+1 =>
      rw [Nat.testBit_add_one, Nat.mul_div_cancel_left _ (show 0 < 2 by omega)]
      simp
  rcases Nat.mod_two_eq_zero_or_one d with hpar | hpar
  · -- even: plain doubling, no wraparound
    simp only [hpar, Nat.zero_ne_one, if_false]
    apply Nat.eq_of_testBit_eq
    intro k
    rw [h2u k]
    by_cases hk0 : k = 0
    · subst hk0
      simp only [if_pos]
      rw [reverse32_testBit (by omega)]
      have h31 : (d / 2).testBit 31 = d.testBit 32 := by
        rw [← Nat.testBit_add_one]
      rw [h31]
      exact Nat.testBit_lt_two_pow hd
    · by_cases hk : k < 32
      · rw [reverse32_testBit hk]
        simp only [hk0, if_false]
        rw [reverse32_testBit (by omega)]
        have he : (d / 2).testBit (31 - k) = d.testBit (31 - k + 1) := by
          rw [← Nat.testBit_add_one]
        rw [he]
        congr 1
        omega
      · simp only [hk0, if_false]
        rw [reverse32_testBit_high (by omega)]
        by_cases hk32 : k - 1 < 32
        · have hk31 : k - 1 = 31 := by omega
          rw [hk31, hbit31, Nat.testBit_zero, hpar]
          simp
        · rw [reverse32_testBit_high (by omega)]
  · -- odd: doubling sets bit 32, recorded as the explicit xor
    simp only [hpar, if_pos]
    apply Nat.eq_of_testBit_eq
    intro k
    rw [Nat.testBit_xor, h2u k, Nat.testBit_two_pow]
    by_cases hk0 : k = 0
    · subst hk0
      simp only [if_pos]
      rw [reverse32_testBit (by omega)]
      have h31 : (d / 2).testBit 31 = d.testBit 32 := by
        rw [← Nat.testBit_add_one]
      rw [h31]
      have : d.testBit 32 = false := by
        apply Nat.testBit_lt_two_pow
        exact hd
      rw [this]
      simp
    · by_cases hk : k < 32
      · rw [reverse32_testBit hk]
        simp only [hk0, if_false]
        rw [reverse32_testBit (by omega)]
        have he : (d / 2).testBit (31 - k) = d.testBit (31 - k + 1) := by
          rw [← Nat.testBit_add_one]
        rw [he]
        have h32k : ¬((32:Nat) = k) := by omega
        simp only [h32k]
        have harg : 31 - k + 1 = 32 - k := by omega
        rw [harg]
        simp
        congr 1
        omega
      · rw [reverse32_testBit_high (by omega)]
        simp only [hk0, if_false]
        by_cases hk32 : k = 32
        · subst hk32
          have h231 : (32:Nat) - 1 = 31 := by omega
          rw [h231, hbit31, Nat.testBit_zero, hpar]
          simp
        · have hbig : 32 ≤ k - 1 := by omega
          rw [reverse32_testBit_high hbig]
          have h32k : ¬((32:Nat) = k) := by omega
          simp [h32k]

theorem pmod_double {u : Nat} (hu : u < 2 ^ 32) :
    pmodBy POLYNOMIAL (2 * u) =
      if (2 * u).testBit 32 then 2 * u ^^^ POLYNOMIAL else 2 * u := by
  by_cases hb : (2 * u).testBit 32
  · simp only [hb, if_pos]
    have h1 : 2 ^ 32 ≤ 2 * u := Nat.testBit_implies_ge hb
    have h2 : 2 * u < 2 ^ 33 := by
      have h3 : (2:Nat) ^ 33 = 2 * 2 ^ 32 := by ring
      omega
    have hr : 2 * u ^^^ POLYNOMIAL < 2 ^ 32 :=
      xor_both_top h1 h2 POLYNOMIAL_bounds.1 POLYNOMIAL_bounds.2
    apply pmodBy_unique (q := 1) POLYNOMIAL_ne_zero
    · rw [clmul_one_left, Nat.xor_comm (2*u) POLYNOMIAL, ← Nat.xor_assoc,
        Nat.xor_self, Nat.zero_xor]
    · rw [get_degree_POLYNOMIAL]
      exact hr
  · have hb' : (2 * u).testBit 32 = false := by simpa using hb
    simp only [hb', Bool.false_eq_true, if_false]
    have h2 : 2 * u < 2 ^ 33 := by
      have h3 : (2:Nat) ^ 33 = 2 * 2 ^ 32 := by ring
      omega
    apply pmodBy_eq_self POLYNOMIAL_ne_zero
    rw [get_degree_POLYNOMIAL]
    exact lt_two_pow_of_testBit_false h2 hb'

theorem reverse32_GEN : reverse32 CRC32_GEN = 0x04C11DB7 := by decide

theorem POLYNOMIAL_split : (2:Nat) ^ 32 ^^^ 0x04C11DB7 = POLYNOMIAL := by decide

theorem rev32_crc32Round {d : Nat} (hd : d < 2 ^ 32) :
    reverse32 (crc32Round d) = pmodBy POLYNOMIAL (2 * reverse32 d) := by
  rw [pmod_double (reverse32_lt d)]
  have hdiv2 : 2 * reverse32 d / 2 = reverse32 d :=
    Nat.mul_div_cancel_left _ (by omega)
  have hbit : (2 * reverse32 d).testBit 32 = d.testBit 0 := by
    have h1 := Nat.testBit_add_one (2 * reverse32 d) 31
    rw [hdiv2] at h1
    rw [h1, reverse32_testBit (by omega)]
  rcases Nat.mod_two_eq_zero_or_one d with hpar | hpar
  · have hcond : ¬(d &&& 1 = 1) := by
      rw [Nat.and_one_is_mod, hpar]
      omega
    have hround : crc32Round d = d / 2 := by
      simp only [crc32Round, hcond, if_false, shiftRight_one]
    have hfalse : d.testBit 0 = false := by
      rw [Nat.testBit_zero, hpar]
      simp
    rw [hround, reverse32_div_two hd, hbit, hfalse]
    simp only [hpar, Nat.zero_ne_one, if_false, Bool.false_eq_true]
  · have hcond : d &&& 1 = 1 := by
      rw [Nat.and_one_is_mod, hpar]
    have hround : crc32Round d = (d / 2) ^^^ CRC32_GEN := by
      simp only [crc32Round, hcond, if_pos, shiftRight_one]
    have htrue : d.testBit 0 = true := by
      rw [Nat.testBit_zero, hpar]
      simp
    rw [hround, reverse32_xor, reverse32_div_two hd, reverse32_GEN, hbit, htrue]
    simp only [hpar, if_pos]
    rw [Nat.xor_assoc, POLYNOMIAL_split]

theorem crc32Round_lt {c : Nat} (hc : c < 2 ^ 32) : crc32Round c < 2 ^ 32 := by
  have hdiv : c >>> 1 < 2 ^ 32 := by
    rw [shiftRight_one]
    omega
  simp only [crc32Round]
  by_cases hb : c &&& 1 = 1
  · simp only [hb, if_pos]
    apply Nat.xor_lt_two_pow hdiv
    norm_num [CRC32_GEN]
  · simp only [hb, if_neg, if_false]
    exact hdiv

theorem rev32_crcRounds {d : Nat} (hd : d < 2 ^ 32) :
    ∀ k, reverse32 (crcRounds k d) =
      pmodBy POLYNOMIAL (clmul (reverse32 d) (2 ^ k)) := by
  have hgen : ∀ k d, d < 2 ^ 32 → reverse32 (crcRounds k d) =
      pmodBy POLYNOMIAL (clmul (reverse32 d) (2 ^ k)) := by
    intro k
    induction k with
    | zero =>
      intro d hd
      show reverse32 d = pmodBy POLYNOMIAL (clmul (reverse32 d) 1)
      rw [clmul_one_right, pmodBy_eq_self POLYNOMIAL_ne_zero]
      rw [get_degree_POLYNOMIAL]
      exact reverse32_lt d
    | succ k ih =>
      intro d hd
      show reverse32 (crcRounds k (crc32Round d)) = _
      rw [ih (crc32Round d) (crc32Round_lt hd), rev32_crc32Round hd,
        ← pmodBy_clmul_left POLYNOMIAL_ne_zero]
      have he : clmul (2 * reverse32 d) (2 ^ k) = clmul (reverse32 d) (2 ^ (k+1)) := by
        rw [clmul_double_left, clmul_two_pow_right, clmul_two_pow_right]
        ring
      rw [he]
  exact fun k => hgen k d hd

/-! ## Linearity of the byte-wise CRC update -/

theorem crc32Round_linear (a b : Nat) :
    crc32Round (a ^^^ b) = crc32Round a ^^^ crc32Round b := by
  simp only [crc32Round, Nat.and_one_is_mod, shiftRight_one, mod_two_xor, xor_div_two]
  rcases Nat.mod_two_eq_zero_or_one a with ha | ha <;>
    rcases Nat.mod_two_eq_zero_or_one b with hb | hb
  · simp [ha, hb]
  · simp only [ha, hb]
    norm_num
    rw [Nat.xor_assoc]
  · simp only [ha, hb]
    norm_num
    rw [Nat.xor_assoc, Nat.xor_comm (b / 2) CRC32_GEN, ← Nat.xor_assoc]
  · simp only [ha, hb]
    norm_num
    rw [xor_swap_pairs, Nat.xor_self, Nat.xor_zero]

theorem crcRounds_linear : ∀ n a b,
    crcRounds n (a ^^^ b) = crcRounds n a ^^^ crcRounds n b := by
  intro n
  induction n with
  | zero => intro a b; rfl
  | succ n ih =>
    intro a b
    show crcRounds n (crc32Round (a ^^^ b)) = _
    rw [crc32Round_linear, ih]
    rfl

theorem crcRounds_add : ∀ m n c, crcRounds (m + n) c = crcRounds n (crcRounds m c) := by
  intro m
  induction m with
  | zero =>
    intro n c
    rw [Nat.zero_add]
    rfl
  | succ m ih =>
    intro n c
    have he : m + 1 + n = (m + n) + 1 := by omega
    rw [he]
    show crcRounds (m + n) (crc32Round c) = _
    rw [ih n (crc32Round c)]
    rfl

theorem crcRounds_lt {c : Nat} (hc : c < 2 ^ 32) (n : Nat) :
    crcRounds n c < 2 ^ 32 := by
  induction n generalizing c with
  | zero => exact hc
  | succ n ih =>
    show crcRounds n (crc32Round c) < 2 ^ 32
    exact ih (crc32Round_lt hc)

/-! ## The running CRC register over a byte list -/

/-- Specification-side name for the foldl at the heart of calculate_crc32
and zlibCrc32. -/
def crcUpdate (data : List Nat) (c : Nat) : Nat := data.foldl crc32UpdateByte c

theorem calculate_crc32_eq (data : List Nat) :
    calculate_crc32 data = crcUpdate data 0xFFFFFFFF ^^^ 0xFFFFFFFF := rfl

theorem zlibCrc32_eq (buf : List Nat) (v : Nat) :
    zlibCrc32 buf v = crcUpdate buf (v ^^^ 0xFFFFFFFF) ^^^ 0xFFFFFFFF := rfl

theorem crcUpdate_append (u v : List Nat) (c : Nat) :
    crcUpdate (u ++ v) c = crcUpdate v (crcUpdate u c) := by
  simp [crcUpdate, List.foldl_append]

theorem crcUpdate_linear : ∀ (data : List Nat) (c d : Nat),
    crcUpdate data (c ^^^ d) = crcUpdate data c ^^^ crcRounds (8 * data.length) d := by
  intro data
  induction data with
  | nil => intro c d; rfl
  | cons b t ih =>
    intro c d
    show crcUpdate t (crc32UpdateByte (c ^^^ d) b) = _
    have hbyte : crc32UpdateByte (c ^^^ d) b =
        crc32UpdateByte c b ^^^ crcRounds 8 d := by
      show crcRounds 8 (c ^^^ d ^^^ b) = _
      have he : c ^^^ d ^^^ b = (c ^^^ b) ^^^ d := by
        rw [Nat.xor_assoc, Nat.xor_comm d b, ← Nat.xor_assoc]
      rw [he, crcRounds_linear]
      rfl
    rw [hbyte, ih (crc32UpdateByte c b) (crcRounds 8 d), ← crcRounds_add]
    have he2 : 8 + 8 * t.length = 8 * (b :: t).length := by
      simp [List.length_cons]
      ring
    rw [he2]
    rfl

theorem crcUpdate_lt : ∀ (data : List Nat), (∀ b ∈ data, b < 2 ^ 32) →
    ∀ c, c < 2 ^ 32 → crcUpdate data c < 2 ^ 32 := by
  intro data
  induction data with
  | nil => intro _ c hc; exact hc
  | cons b t ih =>
    intro hb c hc
    show crcUpdate t (crc32UpdateByte c b) < 2 ^ 32
    apply ih (fun x hx => hb x (List.mem_cons_of_mem b hx))
    show crcRounds 8 (c ^^^ b) < 2 ^ 32
    apply crcRounds_lt
    exact Nat.xor_lt_two_pow hc (hb b (List.mem_cons_self b t))

/-! ## The chunked digest equals the one-buffer digest -/

theorem zlibCrc32_append (u v : List Nat) (w : Nat) :
    zlibCrc32 v (zlibCrc32 u w) = zlibCrc32 (u ++ v) w := by
  rw [zlibCrc32_eq, zlibCrc32_eq, zlibCrc32_eq, crcUpdate_append, Nat.xor_cancel_right]

theorem getCrc32Loop_eq : ∀ (fuel : Nat) (content : List Nat) (crc : Nat),
    content.length < fuel →
    getCrc32Loop fuel content crc = reverse32 (zlibCrc32 content crc) := by
  intro fuel
  induction fuel with
  | zero => intro content crc h; omega
  | succ fuel ih =>
    intro content crc h
    by_cases hc : content = []
    · subst hc
      show reverse32 crc = _
      have hz : zlibCrc32 [] crc = crc := by
        rw [zlibCrc32_eq]
        show crc ^^^ 0xFFFFFFFF ^^^ 0xFFFFFFFF = crc
        rw [Nat.xor_cancel_right]
      rw [hz]
    · have hstep : getCrc32Loop (fuel+1) content crc =
          getCrc32Loop fuel (content.drop 131072)
            (zlibCrc32 (content.take 131072) crc) := by
        simp [getCrc32Loop, hc]
      have hlen : (content.drop 131072).length < fuel := by
        rw [List.length_drop]
        have hpos : 0 < content.length := List.length_pos.mpr hc
        omega
      rw [hstep, ih _ _ hlen, zlibCrc32_append, List.take_append_drop]

theorem get_crc32_eq (content : List Nat) :
    get_crc32 content = reverse32 (zlibCrc32 content 0) :=
  getCrc32Loop_eq (content.length + 1) content 0 (by omega)

/-! ## Effect of xoring bytes into the stream -/

theorem step_xor_byte (c b e : Nat) :
    crc32UpdateByte c (b ^^^ e) = crc32UpdateByte c b ^^^ crcRounds 8 e := by
  show crcRounds 8 (c ^^^ (b ^^^ e)) = crcRounds 8 (c ^^^ b) ^^^ crcRounds 8 e
  rw [← Nat.xor_assoc, crcRounds_linear]

/-- Per-position deltas accumulated by xoring a list of error bytes into
successive stream positions that are followed by the rest of the list. -/
def patchDelta : List Nat → Nat
  | [] => 0
  | e :: es => crcRounds (8 * (es.length + 1)) e ^^^ patchDelta es

theorem patchDelta_lt : ∀ es : List Nat, (∀ e ∈ es, e < 2 ^ 32) →
    patchDelta es < 2 ^ 32 := by
  intro es
  induction es with
  | nil => intro _; norm_num [patchDelta]
  | cons e t ih =>
    intro h
    show crcRounds (8 * (t.length + 1)) e ^^^ patchDelta t < 2 ^ 32
    apply Nat.xor_lt_two_pow
    · exact crcRounds_lt (h e (List.mem_cons_self e t)) _
    · exact ih (fun x hx => h x (List.mem_cons_of_mem e hx))

theorem crcUpdate_zip_xor : ∀ (bs es : List Nat) (c : Nat), bs.length = es.length →
    crcUpdate (List.zipWith (fun x y => x ^^^ y) bs es) c =
      crcUpdate bs c ^^^ patchDelta es := by
  intro bs
  induction bs with
  | nil =>
    intro es c h
    have hes : es = [] := List.eq_nil_of_length_eq_zero h.symm
    subst hes
    show c = c ^^^ 0
    rw [Nat.xor_zero]
  | cons b t ih =>
    intro es c h
    match es with
    | [] => simp at h
    | e :: es' =>
      have hlen : t.length = es'.length := by
        simpa using h
      show crcUpdate (List.zipWith (fun x y => x ^^^ y) t es')
          (crc32UpdateByte c (b ^^^ e)) = _
      rw [step_xor_byte, ih es' _ hlen, crcUpdate_linear, ← crcRounds_add]
      show crcUpdate t (crc32UpdateByte c b) ^^^ crcRounds (8 + 8 * t.length) e ^^^
          patchDelta es' =
        crcUpdate t (crc32UpdateByte c b) ^^^
          (crcRounds (8 * (es'.length + 1)) e ^^^ patchDelta es')
      rw [Nat.xor_assoc]
      have he : 8 + 8 * t.length = 8 * (es'.length + 1) := by
        omega
      rw [he]

theorem crcUpdate_patch (pre mid es suf : List Nat) (c : Nat)
    (h : mid.length = es.length) :
    crcUpdate (pre ++ List.zipWith (fun x y => x ^^^ y) mid es ++ suf) c =
      crcUpdate (pre ++ mid ++ suf) c ^^^
        crcRounds (8 * suf.length) (patchDelta es) := by
  rw [crcUpdate_append, crcUpdate_append, crcUpdate_append, crcUpdate_append,
    crcUpdate_zip_xor mid es _ h, crcUpdate_linear]

theorem zlibCrc32_patch (pre mid es suf : List Nat)
    (h : mid.length = es.length) :
    zlibCrc32 (pre ++ List.zipWith (fun x y => x ^^^ y) mid es ++ suf) 0 =
      zlibCrc32 (pre ++ mid ++ suf) 0 ^^^
        crcRounds (8 * suf.length) (patchDelta es) := by
  rw [zlibCrc32_eq, zlibCrc32_eq, crcUpdate_patch pre mid es suf _ h]
  rw [Nat.xor_comm (crcUpdate (pre ++ mid ++ suf) (0 ^^^ 0xFFFFFFFF))
    (crcRounds (8 * suf.length) (patchDelta es)), Nat.xor_assoc]
  rw [Nat.xor_comm (crcRounds (8 * suf.length) (patchDelta es))]

theorem get_crc32_patch (pre mid es suf : List Nat)
    (h : mid.length = es.length) :
    get_crc32 (pre ++ List.zipWith (fun x y => x ^^^ y) mid es ++ suf) =
      get_crc32 (pre ++ mid ++ suf) ^^^
        reverse32 (crcRounds (8 * suf.length) (patchDelta es)) := by
  rw [get_crc32_eq, get_crc32_eq, zlibCrc32_patch pre mid es suf h, reverse32_xor]

/-! ## Reassembling the four patch bytes -/

theorem byte_term_testBit (u j k : Nat) :
    ((((u >>> (8 * j)) &&& 0xFF) * 2 ^ (8 * j)).testBit k) =
      (decide (8 * j ≤ k) && decide (k < 8 * j + 8) && u.testBit k) := by
  rw [← Nat.shiftLeft_eq, Nat.testBit_shiftLeft, Nat.testBit_land]
  by_cases h1 : 8 * j ≤ k
  · have h1' : k ≥ 8 * j := h1
    simp only [h1', ge_iff_le, decide_eq_true_eq, if_pos, Bool.true_and,
      decide_eq_true (h1)]
    rw [Nat.testBit_shiftRight]
    have h255 : (0xFF : Nat) = 2 ^ 8 - 1 := by norm_num
    rw [h255, Nat.testBit_two_pow_sub_one]
    have he : 8 * j + (k - 8 * j) = k := by omega
    rw [he]
    by_cases h2 : k - 8 * j < 8
    · have h3 : k < 8 * j + 8 := by omega
      simp [h2, h3, Bool.and_comm]
    · have h3 : ¬(k < 8 * j + 8) := by omega
      simp [h2, h3]
  · have h1' : ¬(k ≥ 8 * j) := h1
    simp [h1, h1']

theorem byte_decomp {u : Nat} (hu : u < 2 ^ 32) :
    (((u >>> (8 * 0)) &&& 0xFF) * 2 ^ (8 * 0)) ^^^
      (((u >>> (8 * 1)) &&& 0xFF) * 2 ^ (8 * 1)) ^^^
      (((u >>> (8 * 2)) &&& 0xFF) * 2 ^ (8 * 2)) ^^^
      (((u >>> (8 * 3)) &&& 0xFF) * 2 ^ (8 * 3)) = u := by
  apply Nat.eq_of_testBit_eq
  intro k
  rw [Nat.testBit_xor, Nat.testBit_xor, Nat.testBit_xor,
    byte_term_testBit u 0 k, byte_term_testBit u 1 k,
    byte_term_testBit u 2 k, byte_term_testBit u 3 k]
  by_cases hk32 : k < 32
  · by_cases h1 : k < 8
    · simp [show 8 * 0 ≤ k by omega, h1, show ¬(8 * 1 ≤ k) by omega,
        show ¬(8 * 2 ≤ k) by omega, show ¬(8 * 3 ≤ k) by omega]
    · by_cases h2 : k < 16
      · simp [show ¬(k < 8 * 0 + 8) by omega, show 8 * 1 ≤ k by omega,
          show k < 8 * 1 + 8 by omega, show ¬(8 * 2 ≤ k) by omega,
          show ¬(8 * 3 ≤ k) by omega]
      · by_cases h3 : k < 24
        · simp [show ¬(k < 8 * 0 + 8) by omega, show ¬(k < 8 * 1 + 8) by omega,
            show 8 * 2 ≤ k by omega, show k < 8 * 2 + 8 by omega,
            show ¬(8 * 3 ≤ k) by omega]
        · simp [show ¬(k < 8 * 0 + 8) by omega, show ¬(k < 8 * 1 + 8) by omega,
            show ¬(k < 8 * 2 + 8) by omega, show 8 * 3 ≤ k by omega,
            show k < 8 * 3 + 8 by omega]
  · have hu' : u.testBit k = false := by
      apply Nat.testBit_lt_two_pow
      calc u < 2 ^ 32 := hu
        _ ≤ 2 ^ k := Nat.pow_le_pow_right (by omega) (by omega)
    simp [show ¬(k < 8 * 0 + 8) by omega, show ¬(k < 8 * 1 + 8) by omega,
      show ¬(k < 8 * 2 + 8) by omega, show ¬(k < 8 * 3 + 8) by omega, hu']

theorem rev32_extract_byte {u : Nat} (hu : u < 2 ^ 32) {i : Nat} (hi : i < 4) :
    reverse32 ((reverse32 u >>> (i * 8)) &&& 0xFF) =
      ((u >>> (8 * (3 - i))) &&& 0xFF) * 2 ^ 24 := by
  apply Nat.eq_of_testBit_eq
  intro k
  have h255 : (0xFF : Nat) = 2 ^ 8 - 1 := by norm_num
  by_cases hk32 : k < 32
  · rw [reverse32_testBit hk32]
    rw [Nat.testBit_land, Nat.testBit_shiftRight, h255, Nat.testBit_two_pow_sub_one]
    rw [← Nat.shiftLeft_eq, Nat.testBit_shiftLeft, Nat.testBit_land,
      Nat.testBit_shiftRight, Nat.testBit_two_pow_sub_one]
    by_cases hk24 : 24 ≤ k
    · have hlt : i * 8 + (31 - k) < 32 := by omega
      rw [reverse32_testBit hlt]
      have he1 : 31 - (i * 8 + (31 - k)) = k - 8 * i := by omega
      rw [he1]
      have he2 : 8 * (3 - i) + (k - 24) = k - 8 * i := by omega
      rw [he2]
      simp [show (31:Nat) - k < 8 by omega, show k ≥ 24 by omega,
        show k - 24 < 8 by omega]
    · have hge : ¬(k ≥ 24) := hk24
      simp [show ¬((31:Nat) - k < 8) by omega, hge]
  · rw [reverse32_testBit_high (by omega)]
    rw [← Nat.shiftLeft_eq, Nat.testBit_shiftLeft, Nat.testBit_land,
      Nat.testBit_shiftRight, h255, Nat.testBit_two_pow_sub_one]
    simp [show ¬(k - 24 < 8) by omega]

theorem xor_left_comm (a b c : Nat) : a ^^^ (b ^^^ c) = b ^^^ (a ^^^ c) := by
  rw [← Nat.xor_assoc, Nat.xor_comm a b, Nat.xor_assoc]

theorem rev32_patchDelta_four (e0 e1 e2 e3 : Nat)
    (h0 : e0 < 2 ^ 32) (h1 : e1 < 2 ^ 32) (h2 : e2 < 2 ^ 32) (h3 : e3 < 2 ^ 32) :
    reverse32 (patchDelta [e0, e1, e2, e3]) =
      pmodBy POLYNOMIAL
        (reverse32 e0 * 2 ^ 32 ^^^ (reverse32 e1 * 2 ^ 24 ^^^
          (reverse32 e2 * 2 ^ 16 ^^^ reverse32 e3 * 2 ^ 8))) := by
  have hshape : patchDelta [e0, e1, e2, e3] =
      crcRounds 32 e0 ^^^ (crcRounds 24 e1 ^^^ (crcRounds 16 e2 ^^^
        (crcRounds 8 e3 ^^^ 0))) := rfl
  rw [hshape, Nat.xor_zero, reverse32_xor, reverse32_xor, reverse32_xor,
    rev32_crcRounds h0 32, rev32_crcRounds h1 24, rev32_crcRounds h2 16,
    rev32_crcRounds h3 8, clmul_two_pow_right, clmul_two_pow_right,
    clmul_two_pow_right, clmul_two_pow_right,
    ← pmodBy_xor POLYNOMIAL_ne_zero, ← pmodBy_xor POLYNOMIAL_ne_zero,
    ← pmodBy_xor POLYNOMIAL_ne_zero]

theorem rev32_patchDelta_extract {u : Nat} (hu : u < 2 ^ 32) :
    reverse32 (patchDelta
      [(reverse32 u >>> (0 * 8)) &&& 0xFF,
       (reverse32 u >>> (1 * 8)) &&& 0xFF,
       (reverse32 u >>> (2 * 8)) &&& 0xFF,
       (reverse32 u >>> (3 * 8)) &&& 0xFF]) =
      pmodBy POLYNOMIAL (u * 2 ^ 32) := by
  have hb : ∀ x : Nat, x &&& 0xFF < 2 ^ 32 := fun x =>
    lt_of_le_of_lt Nat.and_le_right (by norm_num)
  rw [rev32_patchDelta_four _ _ _ _ (hb _) (hb _) (hb _) (hb _),
    rev32_extract_byte hu (show (0:Nat) < 4 by omega),
    rev32_extract_byte hu (show (1:Nat) < 4 by omega),
    rev32_extract_byte hu (show (2:Nat) < 4 by omega),
    rev32_extract_byte hu (show (3:Nat) < 4 by omega)]
  congr 1
  have hma : ∀ b a c : Nat, b * 2 ^ a * 2 ^ c = b * 2 ^ (a + c) := by
    intro b a c
    rw [Nat.mul_assoc, ← pow_add]
  conv_rhs => rw [← byte_decomp hu]
  rw [mul_pow_two_xor, mul_pow_two_xor, mul_pow_two_xor,
    hma, hma, hma, hma, hma, hma, hma]
  norm_num
  simp [Nat.xor_assoc, Nat.xor_comm, xor_left_comm]

/-! ## The key 2^s is invertible modulo the polynomial -/

theorem POLYNOMIAL_odd : POLYNOMIAL % 2 = 1 := by decide

theorem coprime_pow_mod_two (s : Nat) :
    ∀ d, pdvd d POLYNOMIAL → pdvd d (pow_mod 2 s) → d = 1 := by
  intro d hP hpow
  have hodd : d % 2 = 1 := pdvd_parity hP POLYNOMIAL_odd
  have hpow' : pdvd d (2 ^ s) := by
    have hex := pmodBy_exists POLYNOMIAL_ne_zero (2 ^ s)
    rw [← hex]
    apply pdvd_xor
    · exact pdvd_clmul hP _
    · rwa [pow_mod_two_eq] at hpow
  exact odd_pdvd_two_pow hodd s hpow'

theorem pow_mod_two_ne_zero (s : Nat) : pow_mod 2 s ≠ 0 := by
  intro h
  have hdvd : pdvd POLYNOMIAL (2 ^ s) := by
    rw [pdvd_iff_pmodBy_eq_zero POLYNOMIAL_ne_zero, ← pow_mod_two_eq, h]
  have h1 : POLYNOMIAL = 1 := odd_pdvd_two_pow POLYNOMIAL_odd s hdvd
  have h2 := POLYNOMIAL_bounds.1
  rw [h1] at h2
  norm_num at h2

theorem get_crc32_lt (content : List Nat) : get_crc32 content < 2 ^ 32 := by
  rw [get_crc32_eq]
  exact reverse32_lt _

/-! ## The four patch bytes derived from a 32-bit delta -/

/-- The list of the four bytes xored into the file by modify_file_crc32
(crc32_modifier.py line 85), for the 32-bit value d = delta after the
multiply_mod/reciprocal_mod step. -/
def patchBytes (d : Nat) : List Nat :=
  [(reverse32 d >>> (0 * 8)) &&& 0xFF,
   (reverse32 d >>> (1 * 8)) &&& 0xFF,
   (reverse32 d >>> (2 * 8)) &&& 0xFF,
   (reverse32 d >>> (3 * 8)) &&& 0xFF]

theorem patchBytes_lt (d : Nat) : ∀ e ∈ patchBytes d, e < 2 ^ 32 := by
  intro e he
  have hb : ∀ x : Nat, x &&& 0xFF < 2 ^ 32 := fun x =>
    lt_of_le_of_lt Nat.and_le_right (by norm_num)
  simp only [patchBytes, List.mem_cons, List.not_mem_nil, or_false] at he
  rcases he with h | h | h | h <;> (subst h; exact hb _)

theorem patchBytes_length (d : Nat) : (patchBytes d).length = 4 := rfl

/-- Internal-digest difference introduced by xoring the patch bytes into a
stream followed by k more bytes: exactly delta2 times x^(32+8k) modulo the
polynomial. -/
theorem patch_digest {delta2 : Nat} (hd : delta2 < 2 ^ 32) (k : Nat) :
    reverse32 (crcRounds (8 * k) (patchDelta (patchBytes delta2))) =
      pmodBy POLYNOMIAL (clmul delta2 (2 ^ (32 + 8 * k))) := by
  rw [rev32_crcRounds (patchDelta_lt _ (patchBytes_lt delta2)) (8 * k)]
  have hext : reverse32 (patchDelta (patchBytes delta2)) =
      pmodBy POLYNOMIAL (delta2 * 2 ^ 32) := rev32_patchDelta_extract hd
  rw [hext,
    ← pmodBy_clmul_left POLYNOMIAL_ne_zero (delta2 * 2 ^ 32) (2 ^ (8 * k)),
    ← clmul_two_pow_right delta2 32, clmul_assoc,
    clmul_two_pow_right (2 ^ 32) (8 * k), ← pow_add]

theorem delta_chain {rcp delta : Nat} (s : Nat)
    (hr : rcp < 2 ^ 32) (hdelta : delta < 2 ^ 32)
    (hinv : pmodBy POLYNOMIAL (clmul rcp (pow_mod 2 s)) = 1) :
    pmodBy POLYNOMIAL (clmul (multiply_mod rcp delta) (2 ^ s)) = delta := by
  rw [multiply_mod_spec hr delta,
    ← pmodBy_clmul_left POLYNOMIAL_ne_zero (clmul rcp delta) (2 ^ s)]
  have hre : clmul (clmul rcp delta) (2 ^ s) = clmul (clmul rcp (2 ^ s)) delta := by
    rw [clmul_assoc, clmul_assoc, clmul_comm delta (2 ^ s)]
  rw [hre, pmodBy_clmul_left POLYNOMIAL_ne_zero (clmul rcp (2 ^ s)) delta]
  have hg : pmodBy POLYNOMIAL (clmul rcp (2 ^ s)) = 1 := by
    rw [pmodBy_clmul_right POLYNOMIAL_ne_zero rcp (2 ^ s), ← pow_mod_two_eq]
    exact hinv
  rw [hg, clmul_one_left]
  exact pmodBy_eq_self POLYNOMIAL_ne_zero
    (by rw [get_degree_POLYNOMIAL]; exact hdelta)

theorem length_eq_four {α : Type} {l : List α} (h : l.length = 4) :
    ∃ a b c d, l = [a, b, c, d] := by
  match l with
  | [a, b, c, d] => exact ⟨a, b, c, d, rfl⟩
  | [] => simp at h
  | [_] => simp at h
  | [_, _] => simp at h
  | [_, _, _] => simp at h
  | _ :: _ :: _ :: _ :: _ :: _ => simp at h

/-- Success of modify_file_crc32 whenever the offset range check passes and
the requested (already bit-reversed) CRC fits in 32 bits: the reciprocal
exists, the function returns the patched content, and the patched content
hashes to the requested value (so the AssertionError branch of
crc32_modifier.py line 95 is not taken). -/
theorem modify_file_crc32_success (content : List Nat) (offset newcrc : Nat)
    (hoff : offset + 4 ≤ content.length) (hcrc : newcrc < 2 ^ 32) :
    ∃ rcp : Nat,
      reciprocal_mod (pow_mod 2 ((content.length - offset) * 8)) = .ok rcp ∧
      modify_file_crc32 content offset newcrc =
        .ok (content.take offset ++
          List.zipWith (fun x y => x ^^^ y) ((content.drop offset).take 4)
            (patchBytes (multiply_mod rcp (get_crc32 content ^^^ newcrc))) ++
          content.drop (offset + 4)) ∧
      get_crc32 (content.take offset ++
          List.zipWith (fun x y => x ^^^ y) ((content.drop offset).take 4)
            (patchBytes (multiply_mod rcp (get_crc32 content ^^^ newcrc))) ++
          content.drop (offset + 4)) = newcrc := by
  obtain ⟨rcp, hrcpeq, hrlt, hinv⟩ :=
    reciprocal_mod_spec (pow_mod_two_ne_zero ((content.length - offset) * 8))
      (pow_mod_two_lt ((content.length - offset) * 8))
      (coprime_pow_mod_two ((content.length - offset) * 8))
  have hdlt : get_crc32 content ^^^ newcrc < 2 ^ 32 :=
    Nat.xor_lt_two_pow (get_crc32_lt content) hcrc
  have hd2lt : multiply_mod rcp (get_crc32 content ^^^ newcrc) < 2 ^ 32 :=
    multiply_mod_lt hrlt _
  have hb4len : ((content.drop offset).take 4).length = 4 := by
    rw [List.length_take, List.length_drop]
    omega
  obtain ⟨b0, b1, b2, b3, hb4⟩ := length_eq_four hb4len
  have hpatch : (List.range 4).map
      (fun i => ((content.drop offset).take 4).getD i 0 ^^^
        ((reverse32 (multiply_mod rcp (get_crc32 content ^^^ newcrc)) >>>
          (i * 8)) &&& 0xFF)) =
      List.zipWith (fun x y => x ^^^ y) ((content.drop offset).take 4)
        (patchBytes (multiply_mod rcp (get_crc32 content ^^^ newcrc))) := by
    rw [hb4]
    rfl
  have hsplit : content.drop offset =
      (content.drop offset).take 4 ++ content.drop (offset + 4) := by
    conv_lhs => rw [← List.take_append_drop 4 (content.drop offset)]
    rw [List.drop_drop]
  have hcontent : content.take offset ++ (content.drop offset).take 4 ++
      content.drop (offset + 4) = content := by
    rw [List.append_assoc, ← hsplit, List.take_append_drop]
  have hver : get_crc32 (content.take offset ++
      List.zipWith (fun x y => x ^^^ y) ((content.drop offset).take 4)
        (patchBytes (multiply_mod rcp (get_crc32 content ^^^ newcrc))) ++
      content.drop (offset + 4)) = newcrc := by
    rw [get_crc32_patch _ _ _ _ (by rw [hb4len, patchBytes_length])]
    rw [hcontent, List.length_drop]
    rw [patch_digest hd2lt (content.length - (offset + 4))]
    rw [show 32 + 8 * (content.length - (offset + 4)) =
      (content.length - offset) * 8 from by omega]
    rw [delta_chain _ hrlt hdlt hinv]
    rw [← Nat.xor_assoc, Nat.xor_self, Nat.zero_xor]
  refine ⟨rcp, hrcpeq, ?_, hver⟩
  unfold modify_file_crc32
  rw [if_neg (show ¬(offset + 4 > content.length) by omega)]
  rw [hrcpeq]
  dsimp only
  rw [if_neg (not_ne_iff.mpr hb4len)]
  rw [hpatch]
  rw [if_neg (not_ne_iff.mpr hver)]

/-! ## Bridges between the two digest entry points -/

theorem calculate_crc32_zlib (data : List Nat) :
    zlibCrc32 data 0 = calculate_crc32 data := by
  rw [zlibCrc32_eq, calculate_crc32_eq, Nat.zero_xor]

theorem get_crc32_calculate (content : List Nat) :
    get_crc32 content = reverse32 (calculate_crc32 content) := by
  rw [get_crc32_eq, calculate_crc32_zlib]

theorem calculate_crc32_lt {data : List Nat} (h : ∀ b ∈ data, b < 2 ^ 32) :
    calculate_crc32 data < 2 ^ 32 := by
  rw [calculate_crc32_eq]
  exact Nat.xor_lt_two_pow (crcUpdate_lt data h 0xFFFFFFFF (by norm_num))
    (by norm_num)

theorem zipWith_xor_lt : ∀ (bs es : List Nat), (∀ b ∈ bs, b < 2 ^ 32) →
    (∀ e ∈ es, e < 2 ^ 32) →
    ∀ x ∈ List.zipWith (fun x y => x ^^^ y) bs es, x < 2 ^ 32 := by
  intro bs
  induction bs with
  | nil => intro es _ _ x hx; simp at hx
  | cons b t ih =>
    intro es hb he x hx
    match es with
    | [] => simp at hx
    | e :: es' =>
      rw [List.zipWith_cons_cons, List.mem_cons] at hx
      rcases hx with h | h
      · subst h
        exact Nat.xor_lt_two_pow (hb b (List.mem_cons_self b t))
          (he e (List.mem_cons_self e es'))
      · exact ih es' (fun y hy => hb y (List.mem_cons_of_mem b hy))
          (fun y hy => he y (List.mem_cons_of_mem e hy)) x h

/-- Under the range precondition, modify_file_crc32 either succeeds or stops
only at the final verification check. -/
theorem modify_result_cases (content : List Nat) (offset newcrc : Nat)
    (h : offset + 4 ≤ content.length) :
    (∃ nc, modify_file_crc32 content offset newcrc = .ok nc) ∨
      modify_file_crc32 content offset newcrc =
        .error "Failed to update CRC-32 to desired value" := by
  obtain ⟨rcp, hrcpeq, hrlt, hinv⟩ :=
    reciprocal_mod_spec (pow_mod_two_ne_zero ((content.length - offset) * 8))
      (pow_mod_two_lt ((content.length - offset) * 8))
      (coprime_pow_mod_two ((content.length - offset) * 8))
  have hb4len : ((content.drop offset).take 4).length = 4 := by
    rw [List.length_take, List.length_drop]
    omega
  unfold modify_file_crc32
  rw [if_neg (show ¬(offset + 4 > content.length) by omega)]
  rw [hrcpeq]
  dsimp only
  rw [if_neg (not_ne_iff.mpr hb4len)]
  by_cases hv : get_crc32 (content.take offset ++
      (List.range 4).map
        (fun i => ((content.drop offset).take 4).getD i 0 ^^^
          ((reverse32 (multiply_mod rcp (get_crc32 content ^^^ newcrc)) >>>
            (i * 8)) &&& 0xFF)) ++
      content.drop (offset + 4)) ≠ newcrc
  · right
    rw [if_pos hv]
  · left
    rw [if_neg hv]
    exact ⟨_, rfl⟩

theorem calc_from_get {data : List Nat} (h : ∀ b ∈ data, b < 2 ^ 32)
    {T : Nat} (hT : T < 2 ^ 32) (hg : get_crc32 data = reverse32 T) :
    calculate_crc32 data = T := by
  have h2 := congrArg reverse32 hg
  rw [get_crc32_calculate,
    reverse32_reverse32 (calculate_crc32_lt h), reverse32_reverse32 hT] at h2
  exact h2

theorem take4_recomb (content : List Nat) (offset : Nat) :
    content.take offset ++ (content.drop offset).take 4 ++
      content.drop (offset + 4) = content := by
  rw [List.append_assoc]
  conv_rhs => rw [← List.take_append_drop offset content]
  congr 1
  conv_rhs => rw [← List.take_append_drop 4 (content.drop offset)]
  rw [List.drop_drop]

theorem frame_of_shape {α : Type} (pre mid suf : List α) (offset : Nat)
    (hpre : pre.length = offset) (hmid : mid.length = 4) :
    (pre ++ mid ++ suf).take offset = pre ∧
      (pre ++ mid ++ suf).drop (offset + 4) = suf ∧
      (pre ++ mid ++ suf).length = offset + 4 + suf.length := by
  refine ⟨?_, ?_, ?_⟩
  · rw [List.append_assoc, ← hpre, List.take_left]
  · have h : (pre ++ mid).length = offset + 4 := by
      rw [List.length_append, hpre, hmid]
    rw [← h, List.drop_left]
  · rw [List.length_append, List.length_append, hpre, hmid]

/-- C1: for every content whose entries are 32-bit values, every offset with
offset + 4 ≤ length and every 32-bit target T, modify_file_crc32 called with
the internal value reverse32 T succeeds (so the AssertionError of
crc32_modifier.py line 95 is never raised), and the patched content's
standard CRC-32/ISO-HDLC digest is exactly T (equivalently get_crc32 of the
result is reverse32 T, the internal form). -/
theorem C1_forge_roundtrip (content : List Nat) (offset T : Nat)
    (hoff : offset + 4 ≤ content.length) (hT : T < 2 ^ 32)
    (hbytes : ∀ b ∈ content, b < 2 ^ 32) :
    ∃ nc, modify_file_crc32 content offset (reverse32 T) = .ok nc ∧
      calculate_crc32 nc = T ∧ get_crc32 nc = reverse32 T := by
  obtain ⟨rcp, hrcpeq, hok, hver⟩ :=
    modify_file_crc32_success content offset (reverse32 T) hoff (reverse32_lt T)
  refine ⟨_, hok, calc_from_get ?_ hT hver, hver⟩
  intro b hb
  rw [List.mem_append, List.mem_append] at hb
  rcases hb with (hb | hb) | hb
  · exact hbytes b (List.mem_of_mem_take hb)
  · exact zipWith_xor_lt _ _
      (fun y hy => hbytes y (List.mem_of_mem_drop (List.mem_of_mem_take hy)))
      (patchBytes_lt _) b hb
  · exact hbytes b (List.mem_of_mem_drop hb)

/-- Witness for C1 at a concrete file and target. -/
theorem C1_forge_roundtrip_witness :
    ∃ nc, modify_file_crc32 [1, 2, 3, 4] 0 (reverse32 0xDEADBEEF) = .ok nc ∧
      calculate_crc32 nc = 0xDEADBEEF ∧ get_crc32 nc = reverse32 0xDEADBEEF :=
  C1_forge_roundtrip [1, 2, 3, 4] 0 0xDEADBEEF (by decide) (by decide) (by decide)

set_option maxRecDepth 100000 in
/-- C2 counterexample: when the requested value equals the file's current
internal CRC the computed delta is zero and the four bytes in the window are
rewritten with their previous values, so NOT exactly 4 bytes differ (zero
bytes differ): the original claim's "exactly the 4 bytes at
[offset, offset+4) differ" fails on this input. -/
theorem C2_counterexample :
    modify_file_crc32 [0, 0, 0, 0] 0 (get_crc32 [0, 0, 0, 0]) =
      .ok [0, 0, 0, 0] := by rfl

/-- C2 (amended): modify_file_crc32 only ever changes the 4 bytes at
[offset, offset+4): the result has the same length and is byte-for-byte
identical to the input outside that window (the bytes inside the window may
or may not differ). -/
theorem C2_frame (content : List Nat) (offset newcrc : Nat)
    (hoff : offset + 4 ≤ content.length) (hcrc : newcrc < 2 ^ 32) :
    ∃ nc, modify_file_crc32 content offset newcrc = .ok nc ∧
      nc.length = content.length ∧
      nc.take offset = content.take offset ∧
      nc.drop (offset + 4) = content.drop (offset + 4) := by
  obtain ⟨rcp, hrcpeq, hok, hver⟩ :=
    modify_file_crc32_success content offset newcrc hoff hcrc
  have hpre : (content.take offset).length = offset := by
    rw [List.length_take]
    omega
  have hmid : (List.zipWith (fun x y => x ^^^ y) ((content.drop offset).take 4)
      (patchBytes (multiply_mod rcp (get_crc32 content ^^^ newcrc)))).length =
      4 := by
    rw [List.length_zipWith, patchBytes_length, List.length_take,
      List.length_drop]
    omega
  obtain ⟨h1, h2, h3⟩ := frame_of_shape (content.take offset) _
    (content.drop (offset + 4)) offset hpre hmid
  refine ⟨_, hok, ?_, h1, h2⟩
  rw [h3, List.length_drop]
  omega

/-- Witness for C2 at a concrete file, offset and target. -/
theorem C2_frame_witness :
    ∃ nc, modify_file_crc32 [9, 8, 7, 6, 5] 1 3 = .ok nc ∧
      nc.length = ([9, 8, 7, 6, 5] : List Nat).length ∧
      nc.take 1 = ([9, 8, 7, 6, 5] : List Nat).take 1 ∧
      nc.drop (1 + 4) = ([9, 8, 7, 6, 5] : List Nat).drop (1 + 4) :=
  C2_frame [9, 8, 7, 6, 5] 1 3 (by decide) (by decide)

/-- C9: forging to the file's current internal CRC-32 is a no-op: the delta
is zero, the four window bytes are xored with zero, and the file is returned
byte-for-byte identical. -/
theorem C9_noop (content : List Nat) (offset : Nat)
    (hoff : offset + 4 ≤ content.length) :
    modify_file_crc32 content offset (get_crc32 content) = .ok content := by
  obtain ⟨rcp, hrcpeq, hok, hver⟩ :=
    modify_file_crc32_success content offset (get_crc32 content) hoff
      (get_crc32_lt content)
  rw [hok]
  congr 1
  have hz : multiply_mod rcp (get_crc32 content ^^^ get_crc32 content) = 0 := by
    rw [Nat.xor_self]
    rfl
  rw [hz]
  have hpb : patchBytes 0 = [0, 0, 0, 0] := by rfl
  rw [hpb]
  have hb4len : ((content.drop offset).take 4).length = 4 := by
    rw [List.length_take, List.length_drop]
    omega
  obtain ⟨b0, b1, b2, b3, hb4⟩ := length_eq_four hb4len
  rw [hb4]
  have hzip : List.zipWith (fun x y => x ^^^ y) [b0, b1, b2, b3]
      ([0, 0, 0, 0] : List Nat) = [b0, b1, b2, b3] := by
    simp
  rw [hzip, ← hb4]
  exact take4_recomb content offset

/-- Witness for C9 at a concrete file and offset. -/
theorem C9_noop_witness :
    modify_file_crc32 [5, 6, 7, 8] 0 (get_crc32 [5, 6, 7, 8]) =
      .ok [5, 6, 7, 8] :=
  C9_noop [5, 6, 7, 8] 0 (by decide)

/-- C10: under the range precondition offset + 4 ≤ length the short-read
branch is unreachable: modify_file_crc32 never returns the IOError
"Cannot read 4 bytes at offset" of crc32_modifier.py line 83. -/
theorem C10_no_short_read (content : List Nat) (offset newcrc : Nat)
    (hoff : offset + 4 ≤ content.length) :
    modify_file_crc32 content offset newcrc ≠
      .error "Cannot read 4 bytes at offset" := by
  rcases modify_result_cases content offset newcrc hoff with ⟨nc, h⟩ | h
  · rw [h]
    intro hc
    exact Except.noConfusion hc
  · rw [h]
    intro hc
    injection hc with h'
    exact absurd h' (by decide)

/-- Witness for C10 at a concrete file, offset and target. -/
theorem C10_no_short_read_witness :
    modify_file_crc32 [0, 0, 0, 0] 0 7 ≠
      .error "Cannot read 4 bytes at offset" :=
  C10_no_short_read [0, 0, 0, 0] 0 7 (by decide)

/-- C7: the range error "Byte offset plus 4 exceeds file length" is returned
exactly when offset + 4 exceeds the file length, and on the boundary
offset + 4 = length the call proceeds past the check and (for a 32-bit
target) succeeds. -/
theorem C7_range_check (content : List Nat) (offset newcrc : Nat) :
    (modify_file_crc32 content offset newcrc =
        .error "Byte offset plus 4 exceeds file length" ↔
      content.length < offset + 4) ∧
    (offset + 4 = content.length → newcrc < 2 ^ 32 →
      ∃ nc, modify_file_crc32 content offset newcrc = .ok nc) := by
  constructor
  · constructor
    · intro h
      by_contra hlt
      push_neg at hlt
      rcases modify_result_cases content offset newcrc hlt with ⟨nc, h2⟩ | h2
      · rw [h2] at h
        exact Except.noConfusion h
      · rw [h2] at h
        injection h with h'
        exact absurd h' (by decide)
    · intro h
      unfold modify_file_crc32
      rw [if_pos (show offset + 4 > content.length from h)]
  · intro he hcrc
    obtain ⟨rcp, hrcpeq, hok, hver⟩ :=
      modify_file_crc32_success content offset newcrc (by omega) hcrc
    exact ⟨_, hok⟩

/-- Witness for C7: the range error fires on a 3-byte file at offset 0, and
the boundary offset + 4 = length succeeds. -/
theorem C7_range_check_witness :
    modify_file_crc32 [1, 2, 3] 0 0 =
      .error "Byte offset plus 4 exceeds file length" ∧
    (∃ nc, modify_file_crc32 [1, 2, 3, 4] 0 5 = .ok nc) := by
  constructor
  · exact (C7_range_check [1, 2, 3] 0 0).1.mpr (by decide)
  · exact (C7_range_check [1, 2, 3, 4] 0 5).2 (by decide) (by decide)

/-- C4: the chunked digest is chunk-boundary independent: folding the
zlib.crc32 update over any partition of a byte sequence, starting from 0,
equals the one-buffer digest of the whole sequence; consequently
reverse32 (get_crc32 content) is exactly calculate_crc32 content for byte
contents. -/
theorem C4_chunk_independent :
    (∀ chunks : List (List Nat),
      chunks.foldl (fun c buf => zlibCrc32 buf c) 0 =
        zlibCrc32 chunks.flatten 0) ∧
    (∀ content : List Nat, (∀ b ∈ content, b < 2 ^ 32) →
      reverse32 (get_crc32 content) = calculate_crc32 content) := by
  constructor
  · have hgen : ∀ (chunks : List (List Nat)) (v : Nat),
        chunks.foldl (fun c buf => zlibCrc32 buf c) v =
          zlibCrc32 chunks.flatten v := by
      intro chunks
      induction chunks with
      | nil =>
        intro v
        show v = zlibCrc32 [] v
        rw [zlibCrc32_eq]
        show v = v ^^^ 0xFFFFFFFF ^^^ 0xFFFFFFFF
        rw [Nat.xor_cancel_right]
      | cons c cs ih =>
        intro v
        show cs.foldl _ (zlibCrc32 c v) = zlibCrc32 (c :: cs).flatten v
        rw [ih (zlibCrc32 c v), List.flatten_cons, zlibCrc32_append]
    exact fun chunks => hgen chunks 0
  · intro content hb
    rw [get_crc32_calculate, reverse32_reverse32 (calculate_crc32_lt hb)]

/-- Witness for C4 at a concrete chunking and content. -/
theorem C4_chunk_independent_witness :
    ([[1, 2], [3]] : List (List Nat)).foldl (fun c buf => zlibCrc32 buf c) 0 =
      zlibCrc32 ([[1, 2], [3]] : List (List Nat)).flatten 0 ∧
    reverse32 (get_crc32 [1, 2, 3]) = calculate_crc32 [1, 2, 3] :=
  ⟨C4_chunk_independent.1 [[1, 2], [3]],
   C4_chunk_independent.2 [1, 2, 3] (by decide)⟩

/-! ## The canonical CRC-32 algorithm as the claim C3 words it -/

/-- One bit step as the claim's words give it: if the low bit is set, shift
right and xor with the generator 0xEDB88320, else shift right. -/
def crc32_spec_step (r : Nat) : Nat :=
  if r % 2 = 1 then (r / 2) ^^^ 0xEDB88320 else r / 2

/-- The canonical CRC-32/ISO-HDLC digest as worded by claim C3: initial
register 0xFFFFFFFF, one byte consumed per outer step, 8 bit steps per byte,
final xor 0xFFFFFFFF. -/
def crc32_spec (data : List Nat) : Nat :=
  (data.foldl (fun r b => crc32_spec_step^[8] (r ^^^ b)) 0xFFFFFFFF) ^^^
    0xFFFFFFFF

theorem crcRounds_eq_spec_iter : ∀ (n : Nat) (c : Nat),
    crcRounds n c = crc32_spec_step^[n] c := by
  intro n
  induction n with
  | zero => intro c; rfl
  | succ n ih =>
    intro c
    show crcRounds n (crc32Round c) = _
    have hstep : crc32Round c = crc32_spec_step c := by
      show (if c &&& 1 = 1 then (c >>> 1) ^^^ CRC32_GEN else c >>> 1) = _
      rw [Nat.and_one_is_mod, shiftRight_one]
      rfl
    rw [ih, hstep, Function.iterate_succ_apply]

theorem calculate_crc32_eq_spec (data : List Nat) :
    calculate_crc32 data = crc32_spec data := by
  show (data.foldl crc32UpdateByte 0xFFFFFFFF) ^^^ 0xFFFFFFFF = _
  unfold crc32_spec
  congr 1
  have hf : crc32UpdateByte = fun r b => crc32_spec_step^[8] (r ^^^ b) := by
    funext r b
    exact crcRounds_eq_spec_iter 8 (r ^^^ b)
  rw [hf]

/-- Byte content of the UTF-8 string "george". -/
def georgeBytes : List Nat := [0x67, 0x65, 0x6F, 0x72, 0x67, 0x65]

set_option maxRecDepth 100000 in
/-- C3 counterexample: the digest of "george" is 0xD6B555A0, not the
0x4C7F5E35 the specification claims. -/
theorem C3_george_counterexample :
    calculate_crc32 georgeBytes = 0xD6B555A0 ∧
      calculate_crc32 georgeBytes ≠ 0x4C7F5E35 := by
  constructor
  · decide
  · decide

set_option maxRecDepth 100000 in
/-- C3 (amended): calculate_crc32 is exactly the canonical CRC-32/ISO-HDLC
algorithm (initial register 0xFFFFFFFF, generator 0xEDB88320, 8 bit steps
per byte, final xor 0xFFFFFFFF), and the digest of "george" is 0xD6B555A0
(the specification's reference value 0x4C7F5E35 is wrong). -/
theorem C3_algorithm_amended :
    (∀ data : List Nat, calculate_crc32 data = crc32_spec data) ∧
      calculate_crc32 georgeBytes = 0xD6B555A0 :=
  ⟨calculate_crc32_eq_spec, by decide⟩

/-- C5 counterexample: for x = 2^32 (degree 32, representable since Python
ints are unbounded) and y = 2^16, division returns quotient 65536 and
remainder 0, but multiply_mod reduces the product modulo the polynomial, so
multiply_mod(q, y) xor r = 0x04C11DB7 differs from x: the claimed identity
fails for x of degree ≥ 32. -/
theorem C5_counterexample :
    divide_and_remainder (2 ^ 32) (2 ^ 16) = .ok (65536, 0) ∧
      multiply_mod 65536 65536 ^^^ 0 ≠ 2 ^ 32 := by
  constructor
  · rfl
  · decide

/-- C5 (amended): the reconstruction identity
multiply_mod(quotient, y) xor remainder = x holds for every nonzero y once
x is restricted to 32-bit values (degree < 32), which is the only way
multiply_mod's running reduction modulo the polynomial never fires. -/
theorem C5_divrem_amended (x y : Nat) (hx : x < 2 ^ 32) (hy : y ≠ 0)
    {q r : Nat} (h : divide_and_remainder x y = .ok (q, r)) :
    multiply_mod q y ^^^ r = x := by
  unfold divide_and_remainder at h
  rw [if_neg hy] at h
  injection h with h'
  obtain ⟨hrec, hrlt⟩ := divRemT_spec (x := x) hy
  rw [h'] at hrec hrlt
  by_cases hx0 : x = 0
  · have hq : divRemT x y = (0, 0) := by
      unfold divRemT
      rw [if_pos hx0]
    rw [hq] at h'
    injection h'.symm with hq1 hq2
    subst hq1
    subst hq2
    rw [multiply_mod_no_reduction (Or.inr (by norm_num)), clmul_zero_left,
      Nat.zero_xor]
    exact hx0.symm
  · by_cases hdeg : get_degree x < get_degree y
    · have hq : divRemT x y = (0, x) := by
        unfold divRemT
        rw [if_neg hx0, if_pos hdeg]
      rw [hq] at h'
      injection h'.symm with hq1 hq2
      subst hq1
      subst hq2
      rw [multiply_mod_no_reduction (Or.inr (by norm_num)), clmul_zero_left,
        Nat.zero_xor]
    · have hdx : get_degree x < 32 := get_degree_lt_of_lt hx0 hx
      have hqlt : q < 2 ^ (get_degree x - get_degree y + 1) := by
        have h1 := divRemT_fst_lt (x := x) hy
        rw [h'] at h1
        exact h1
      have hmul : q * 2 ^ get_degree y < 2 ^ 32 := by
        calc q * 2 ^ get_degree y
            < 2 ^ (get_degree x - get_degree y + 1) * 2 ^ get_degree y :=
              Nat.mul_lt_mul_of_pos_right hqlt (Nat.pos_pow_of_pos _
                (by omega))
          _ = 2 ^ (get_degree x - get_degree y + 1 + get_degree y) := by
              rw [← pow_add]
          _ ≤ 2 ^ 32 := Nat.pow_le_pow_right (by omega) (by omega)
      rw [multiply_mod_no_reduction (Or.inr hmul)]
      exact hrec

/-- Witness for C5 (amended) at a concrete division: 5 = 2·2 xor 1 over
GF(2). -/
theorem C5_divrem_amended_witness : multiply_mod 2 2 ^^^ 1 = 5 :=
  C5_divrem_amended 5 2 (by decide) (by decide)
    (show divide_and_remainder 5 2 = Except.ok (2, 1) from rfl)

/-! ## Acceptance of the desired-checksum argument (claim C8) -/

theorem hexDigit_ge_48 {c : Char} (h : (hexDigitVal c).isSome = true) :
    48 ≤ c.toNat := by
  unfold hexDigitVal at h
  by_cases h1 : '0' ≤ c ∧ c ≤ '9'
  · exact h1.1
  · rw [if_neg h1] at h
    by_cases h2 : 'a' ≤ c ∧ c ≤ 'f'
    · have hh : 97 ≤ c.toNat := h2.1
      omega
    · rw [if_neg h2] at h
      by_cases h3 : 'A' ≤ c ∧ c ≤ 'F'
      · have hh : 65 ≤ c.toNat := h3.1
        omega
      · rw [if_neg h3] at h
        simp at h

theorem hexDigit_not_ws {c : Char} (h : (hexDigitVal c).isSome = true) :
    pyWhitespace c = false := by
  have h48 := hexDigit_ge_48 h
  unfold pyWhitespace
  apply decide_eq_false
  intro hor
  rcases hor with hh | hh | hh | hh | hh | hh
  · rw [hh] at h48
    exact absurd h48 (by decide)
  · rw [hh] at h48
    exact absurd h48 (by decide)
  · rw [hh] at h48
    exact absurd h48 (by decide)
  · rw [hh] at h48
    exact absurd h48 (by decide)
  · omega
  · omega

theorem hexDigit_lt_16 (c : Char) : (hexDigitVal c).getD 0 < 16 := by
  unfold hexDigitVal
  by_cases h1 : '0' ≤ c ∧ c ≤ '9'
  · rw [if_pos h1]
    have hh : c.toNat ≤ 57 := h1.2
    simp only [Option.getD_some]
    rw [show ('0').toNat = 48 from rfl]
    omega
  · rw [if_neg h1]
    by_cases h2 : 'a' ≤ c ∧ c ≤ 'f'
    · rw [if_pos h2]
      have hh : c.toNat ≤ 102 := h2.2
      simp only [Option.getD_some]
      rw [show ('a').toNat = 97 from rfl]
      omega
    · rw [if_neg h2]
      by_cases h3 : 'A' ≤ c ∧ c ≤ 'F'
      · rw [if_pos h3]
        have hh : c.toNat ≤ 70 := h3.2
        simp only [Option.getD_some]
        rw [show ('A').toNat = 65 from rfl]
        omega
      · rw [if_neg h3]
        simp

theorem dropWhile_all_false {p : Char → Bool} :
    ∀ s : List Char, (∀ c ∈ s, p c = false) → s.dropWhile p = s := by
  intro s h
  match s with
  | [] => rfl
  | c :: rest =>
    rw [List.dropWhile_cons, h c (List.mem_cons_self c rest)]
    simp

theorem strip_of_all_hex {s : List Char}
    (h : ∀ c ∈ s, (hexDigitVal c).isSome = true) :
    ((s.dropWhile pyWhitespace).reverse.dropWhile pyWhitespace).reverse = s := by
  have hws : ∀ c ∈ s, pyWhitespace c = false := fun c hc =>
    hexDigit_not_ws (h c hc)
  rw [dropWhile_all_false s hws,
    dropWhile_all_false s.reverse (fun c hc => hws c (List.mem_reverse.mp hc)),
    List.reverse_reverse]

theorem hexTail_step (c : Char) (rest : List Char) (hc : c ≠ '_') (v : Nat)
    (hv : hexDigitVal c = some v) (acc : Nat) :
    hexTail acc (c :: rest) = hexTail (16 * acc + v) rest := by
  rw [hexTail.eq_def]
  split
  · rename_i heq
    exact List.noConfusion heq
  · rename_i c' rest' heq
    injection heq with h1 h2
    exact absurd h1 hc
  · rename_i heq
    injection heq with h1 h2
    exact absurd h1 hc
  · rename_i c' rest' heq
    injection heq with h1 h2
    subst h1
    subst h2
    rw [hv]

theorem hexTail_all_hex : ∀ (s : List Char) (acc : Nat),
    (∀ c ∈ s, (hexDigitVal c).isSome = true) →
    hexTail acc s =
      some (s.foldl (fun a c => 16 * a + (hexDigitVal c).getD 0) acc) := by
  intro s
  induction s with
  | nil => intro acc _; rfl
  | cons c rest ih =>
    intro acc h
    have hc := h c (List.mem_cons_self c rest)
    obtain ⟨v, hv⟩ := Option.isSome_iff_exists.mp hc
    have hcu : c ≠ '_' := by
      intro he
      rw [he, show hexDigitVal '_' = none from by decide] at hv
      exact Option.noConfusion hv
    rw [hexTail_step c rest hcu v hv acc,
      ih _ (fun x hx => h x (List.mem_cons_of_mem c hx))]
    simp [hv]

theorem hexRun_all_hex : ∀ {s : List Char}, s ≠ [] →
    (∀ c ∈ s, (hexDigitVal c).isSome = true) →
    hexRun s =
      some (s.foldl (fun a c => 16 * a + (hexDigitVal c).getD 0) 0) := by
  intro s hne h
  match s with
  | [] => exact absurd rfl hne
  | c :: rest =>
    have hc := h c (List.mem_cons_self c rest)
    obtain ⟨v, hv⟩ := Option.isSome_iff_exists.mp hc
    show (match hexDigitVal c with
      | some v => hexTail v rest
      | none => none) = _
    rw [hv]
    dsimp only
    rw [hexTail_all_hex rest v (fun x hx => h x (List.mem_cons_of_mem c hx))]
    simp [hv]

theorem hexPrefixed_all_hex {s : List Char}
    (h : ∀ c ∈ s, (hexDigitVal c).isSome = true) :
    hexPrefixed s = hexRun s := by
  rw [hexPrefixed.eq_def]
  split
  · exact absurd (h 'x' (by simp)) (by decide)
  · exact absurd (h 'x' (by simp)) (by decide)
  · exact absurd (h 'X' (by simp)) (by decide)
  · exact absurd (h 'X' (by simp)) (by decide)
  · rfl

/-- Value of a string of hexadecimal digits, most significant first. -/
def hexValNat (s : List Char) : Nat :=
  s.foldl (fun a c => 16 * a + (hexDigitVal c).getD 0) 0

theorem hexfold_lt : ∀ (s : List Char) (acc B : Nat), acc < B →
    s.foldl (fun a c => 16 * a + (hexDigitVal c).getD 0) acc <
      B * 16 ^ s.length := by
  intro s
  induction s with
  | nil => intro acc B h; simpa using h
  | cons c rest ih =>
    intro acc B h
    simp only [List.foldl_cons, List.length_cons]
    have h1 : 16 * acc + (hexDigitVal c).getD 0 < 16 * B := by
      have := hexDigit_lt_16 c
      omega
    have h2 : rest.foldl (fun a c => 16 * a + (hexDigitVal c).getD 0)
        (16 * acc + (hexDigitVal c).getD 0) < (16 * B) * 16 ^ rest.length :=
      ih _ _ h1
    have h3 : (16 * B) * 16 ^ rest.length = B * 16 ^ (rest.length + 1) := by
      ring
    exact h3 ▸ h2

theorem hexValNat_lt {s : List Char} (hlen : s.length = 8) :
    hexValNat s < 2 ^ 32 := by
  have h := hexfold_lt s 0 1 (by omega)
  rw [hlen] at h
  unfold hexValNat
  calc s.foldl (fun a c => 16 * a + (hexDigitVal c).getD 0) 0
      < 1 * 16 ^ 8 := h
    _ = 2 ^ 32 := by norm_num

theorem pyIntHex_all_hex {s : List Char} (hne : s ≠ [])
    (h : ∀ c ∈ s, (hexDigitVal c).isSome = true) :
    pyIntHex s = some ((hexValNat s : Nat) : Int) := by
  unfold pyIntHex
  rw [strip_of_all_hex h]
  split
  · exact absurd (h '+' (by simp)) (by decide)
  · exact absurd (h '-' (by simp)) (by decide)
  · rw [hexPrefixed_all_hex h, hexRun_all_hex hne h]
    rfl

theorem validate_new_crc_all_hex {s : List Char} (hlen : s.length = 8)
    (h : ∀ c ∈ s, (hexDigitVal c).isSome = true) :
    validate_new_crc s = some (reverse32 (hexValNat s)) := by
  have hne : s ≠ [] := by
    intro he
    rw [he] at hlen
    simp at hlen
  unfold validate_new_crc
  rw [if_neg (not_ne_iff.mpr hlen)]
  have hhead : ¬(s.head? = some '+' ∨ s.head? = some '-') := by
    match s with
    | [] => exact absurd rfl hne
    | c :: rest =>
      intro hor
      have hc := h c (List.mem_cons_self c rest)
      rcases hor with hh | hh
      · injection hh with hh'
        rw [hh'] at hc
        exact absurd hc (by decide)
      · injection hh with hh'
        rw [hh'] at hc
        exact absurd hc (by decide)
  rw [if_neg hhead, pyIntHex_all_hex hne h]
  dsimp only
  have hmod : ((hexValNat s : Nat) : Int) % ((MASK : Int) + 1) =
      ((hexValNat s : Nat) : Int) := by
    apply Int.emod_eq_of_lt (Int.natCast_nonneg _)
    have hmask : ((MASK : Int) + 1) = 2 ^ 32 := by
      rw [show (MASK : Nat) = 2 ^ 32 - 1 from by decide]
      norm_num
    rw [hmask]
    exact_mod_cast hexValNat_lt hlen
  rw [if_neg (not_ne_iff.mpr hmod), Int.toNat_natCast]

set_option maxRecDepth 100000 in
/-- C8 counterexample: the string "0x123456" has length 8 but is NOT eight
hexadecimal digits ('x' is not one), yet main's validation accepts it,
because Python's int(s, 16) allows an optional 0x prefix: the claimed
"if and only if exactly 8 hexadecimal digits" fails. -/
theorem C8_counterexample :
    (validate_new_crc ("0x123456".toList)).isSome = true ∧
      ¬(∀ c ∈ "0x123456".toList, (hexDigitVal c).isSome = true) := by
  constructor
  · decide
  · decide

/-- C8 (amended): every 8-character string consisting only of hexadecimal
digits is accepted, and the accepted value is the hex value bit-reversed by
reverse32 before internal use; conversely an accepted argument always has
length 8 and no sign prefix — but acceptance is not limited to pure digit
strings (int(s, 16) also takes 0x/0X prefixes, underscores and surrounding
whitespace within the 8 characters). -/
theorem C8_validate_amended :
    (∀ s : List Char, s.length = 8 →
      (∀ c ∈ s, (hexDigitVal c).isSome = true) →
      validate_new_crc s = some (reverse32 (hexValNat s))) ∧
    (∀ (s : List Char) (v : Nat), validate_new_crc s = some v →
      s.length = 8 ∧ ¬(s.head? = some '+' ∨ s.head? = some '-')) := by
  constructor
  · exact fun s h1 h2 => validate_new_crc_all_hex h1 h2
  · intro s v hv
    unfold validate_new_crc at hv
    by_cases h1 : s.length ≠ 8
    · rw [if_pos h1] at hv
      exact Option.noConfusion hv
    · rw [if_neg h1] at hv
      by_cases h2 : s.head? = some '+' ∨ s.head? = some '-'
      · rw [if_pos h2] at hv
        exact Option.noConfusion hv
      · exact ⟨not_ne_iff.mp h1, h2⟩

/-- Witness for C8 (amended) on a concrete 8-hex-digit argument. -/
theorem C8_validate_amended_witness :
    validate_new_crc ("1234ABCD".toList) =
      some (reverse32 (hexValNat ("1234ABCD".toList))) :=
  C8_validate_amended.1 _ (by decide) (by decide)

/-! ## Irreducibility of the CRC-32 generator polynomial (claim C6) -/

/-- Irreducible GF(2) polynomial: at least x (value 2) and no factorization
into two non-unit polynomials. -/
def pirreducible (p : Nat) : Prop :=
  2 ≤ p ∧ ∀ u v, clmul u v = p → u = 1 ∨ v = 1

theorem pdvd_lt_imp_zero {q s : Nat} (h : pdvd q s)
    (hs : s < 2 ^ get_degree q) : s = 0 := by
  by_contra hs0
  obtain ⟨hq0, hdeg⟩ := pdvd_deg_le h hs0
  have h1 : 2 ^ get_degree q ≤ 2 ^ get_degree s :=
    Nat.pow_le_pow_right (by omega) hdeg
  have h2 : 2 ^ get_degree s ≤ s := (get_degree_spec hs0).1
  omega

theorem deg_zero_imp_one {u : Nat} (h0 : u ≠ 0) (hd : get_degree u = 0) :
    u = 1 := by
  obtain ⟨h1, h2⟩ := get_degree_spec h0
  rw [hd] at h1 h2
  omega

theorem egcd_exists : ∀ b a : Nat, ∃ g u v,
    clmul u a ^^^ clmul v b = g ∧ pdvd g a ∧ pdvd g b := by
  intro b
  induction b using Nat.strong_induction_on with
  | _ b ih =>
    intro a
    by_cases hb : b = 0
    · subst hb
      exact ⟨a, 1, 0, by rw [clmul_one_left, clmul_zero_left, Nat.xor_zero],
        pdvd_refl a, pdvd_zero a⟩
    · have hex := pmodBy_exists hb a
      have hrb : pmodBy b a < b := by
        have h1 := pmodBy_lt hb a
        have h2 := (get_degree_spec hb).1
        omega
      obtain ⟨g, u, v, hguv, hgB, hgR⟩ := ih (pmodBy b a) hrb b
      refine ⟨g, v, u ^^^ clmul v (divRemT a b).1, ?_, ?_, hgB⟩
      · have hva : clmul v a =
            clmul (clmul v (divRemT a b).1) b ^^^ clmul v (pmodBy b a) := by
          conv_lhs => rw [← hex]
          rw [clmul_xor_right, ← clmul_assoc]
        rw [hva, clmul_xor_left, Nat.xor_comm (clmul u b)
          (clmul (clmul v (divRemT a b).1) b), ← Nat.xor_assoc]
        rw [Nat.xor_comm (clmul (clmul v (divRemT a b).1) b)
          (clmul v (pmodBy b a)),
          Nat.xor_assoc (clmul v (pmodBy b a)), Nat.xor_self, Nat.xor_zero,
          Nat.xor_comm]
        exact hguv
      · rw [← hex]
        exact pdvd_xor (pdvd_clmul hgB _) hgR

theorem pirreducible_divisors {q d : Nat} (hq : pirreducible q)
    (h : pdvd d q) : d = 1 ∨ d = q := by
  obtain ⟨e, he⟩ := h
  rcases hq.2 d e he with h1 | h1
  · exact Or.inl h1
  · right
    rw [h1, clmul_one_right] at he
    exact he

theorem euclid_lemma {q u v : Nat} (hq : pirreducible q)
    (h : pdvd q (clmul u v)) (hu : ¬pdvd q u) : pdvd q v := by
  obtain ⟨g, s, t, hguv, hgq, hgu⟩ := egcd_exists u q
  rcases pirreducible_divisors hq hgq with h1 | h1
  · rw [h1] at hguv
    have hv : v = clmul (clmul v s) q ^^^ clmul t (clmul u v) := by
      calc v = clmul v 1 := (clmul_one_right v).symm
        _ = clmul v (clmul s q ^^^ clmul t u) := by rw [hguv]
        _ = clmul v (clmul s q) ^^^ clmul v (clmul t u) :=
            clmul_xor_right v (clmul s q) (clmul t u)
        _ = clmul (clmul v s) q ^^^ clmul t (clmul u v) := by
            rw [← clmul_assoc v s q, ← clmul_assoc v t u,
              clmul_comm v t, clmul_assoc t v u, clmul_comm v u]
    rw [hv]
    exact pdvd_xor (pdvd_clmul (pdvd_refl q) (clmul v s)) (pdvd_clmul h t)
  · rw [h1] at hgu
    exact absurd hgu hu

theorem pirreducible_deg_pos {q : Nat} (hq : pirreducible q) :
    1 ≤ get_degree q := by
  by_contra h
  push_neg at h
  have hd0 : get_degree q = 0 := by omega
  have h1 := deg_zero_imp_one (by have := hq.1; omega) hd0
  have := hq.1
  omega

theorem exists_pirreducible_factor : ∀ w, 2 ≤ w →
    ∃ q, pirreducible q ∧ pdvd q w ∧ get_degree q ≤ get_degree w := by
  intro w
  induction w using Nat.strong_induction_on with
  | _ w ih =>
    intro hw
    by_cases hirr : ∀ u v, clmul u v = w → u = 1 ∨ v = 1
    · exact ⟨w, ⟨hw, hirr⟩, pdvd_refl w, Nat.le_refl _⟩
    · push_neg at hirr
      obtain ⟨u, v, huv, hu1, hv1⟩ := hirr
      have hw0 : w ≠ 0 := by omega
      have hu0 : u ≠ 0 := by
        rintro rfl
        rw [clmul_zero_left] at huv
        omega
      have hv0 : v ≠ 0 := by
        rintro rfl
        rw [clmul_zero_right] at huv
        omega
      have hdu : 1 ≤ get_degree u := by
        by_contra hc
        push_neg at hc
        exact hu1 (deg_zero_imp_one hu0 (by omega))
      have hdv : 1 ≤ get_degree v := by
        by_contra hc
        push_neg at hc
        exact hv1 (deg_zero_imp_one hv0 (by omega))
      have hdsum := get_degree_clmul hu0 hv0
      rw [huv] at hdsum
      have hdw : get_degree w = get_degree u + get_degree v :=
        get_degree_eq_of hdsum.1 hdsum.2
      have hult : u < w := by
        have h1 := (get_degree_spec hu0).2
        have h2 : 2 ^ (get_degree u + 1) ≤ 2 ^ (get_degree u + get_degree v) :=
          Nat.pow_le_pow_right (by omega) (by omega)
        have h3 := hdsum.1
        omega
      have hu2 : 2 ≤ u := by
        rcases Nat.lt_or_ge u 2 with hcase | hcase
        · interval_cases u
          · exact absurd rfl hu0
          · exact absurd rfl hu1
        · exact hcase
      obtain ⟨q, hq, hqu, hqd⟩ := ih u hult hu2
      exact ⟨q, hq, pdvd_trans hqu ⟨v, huv⟩, by omega⟩

/-- Residue multiplication modulo q. -/
def resMul (q b a : Nat) : Nat := pmodBy q (clmul b a)

theorem resMul_comm (q b a : Nat) : resMul q b a = resMul q a b := by
  unfold resMul
  rw [clmul_comm]

theorem resMul_assoc {q : Nat} (hq : q ≠ 0) (c b x : Nat) :
    resMul q (resMul q c b) x = resMul q c (resMul q b x) := by
  unfold resMul
  rw [← pmodBy_clmul_left hq, ← pmodBy_clmul_right hq, clmul_assoc]

theorem resMul_right_comm {q : Nat} (hq : q ≠ 0) (z x y : Nat) :
    resMul q (resMul q z x) y = resMul q (resMul q z y) x := by
  rw [resMul_assoc hq, resMul_assoc hq, resMul_comm q x y]

theorem resMul_lt {q : Nat} (hq : q ≠ 0) (b a : Nat) :
    resMul q b a < 2 ^ get_degree q := pmodBy_lt hq _

theorem foldl_resMul_pull {q : Nat} (hq : q ≠ 0) :
    ∀ (L : List Nat) (c b : Nat),
      List.foldl (resMul q) (resMul q c b) L =
        resMul q c (List.foldl (resMul q) b L) := by
  intro L
  induction L with
  | nil => intro c b; rfl
  | cons x t ih =>
    intro c b
    show List.foldl (resMul q) (resMul q (resMul q c b) x) t = _
    rw [resMul_assoc hq, ih]
    rfl

theorem foldl_resMul_map {q : Nat} (hq : q ≠ 0) (hdeg : 1 ≤ get_degree q) :
    ∀ (L : List Nat) (b : Nat), b < 2 ^ get_degree q →
      List.foldl (resMul q) b (L.map (fun s => resMul q 2 s)) =
        resMul q (pmodBy q (cpow 2 L.length))
          (List.foldl (resMul q) b L) := by
  intro L
  induction L with
  | nil =>
    intro b hb
    show b = resMul q (pmodBy q (cpow 2 0)) b
    have h1 : pmodBy q (cpow 2 0) = 1 := by
      show pmodBy q 1 = 1
      apply pmodBy_eq_self hq
      calc (1:Nat) < 2 ^ 1 := by norm_num
        _ ≤ 2 ^ get_degree q := Nat.pow_le_pow_right (by omega) hdeg
    rw [h1]
    unfold resMul
    rw [clmul_one_left, pmodBy_eq_self hq hb]
  | cons s t ih =>
    intro b hb
    show List.foldl (resMul q) (resMul q b (resMul q 2 s))
        (t.map (fun s => resMul q 2 s)) = _
    rw [ih (resMul q b (resMul q 2 s)) (resMul_lt hq _ _)]
    have hre : resMul q b (resMul q 2 s) = resMul q 2 (resMul q b s) := by
      rw [resMul_comm q b (resMul q 2 s), resMul_assoc hq,
        resMul_comm q s b]
    rw [hre, foldl_resMul_pull hq]
    show resMul q (pmodBy q (cpow 2 t.length))
        (resMul q 2 (List.foldl (resMul q) (resMul q b s) t)) =
      resMul q (pmodBy q (cpow 2 (t.length + 1)))
        (List.foldl (resMul q) (resMul q b s) t)
    unfold resMul
    rw [← pmodBy_clmul_left hq, ← pmodBy_clmul_right hq (cpow 2 t.length),
      ← clmul_assoc]
    rw [show cpow 2 (t.length + 1) = clmul 2 (cpow 2 t.length) from rfl]
    rw [← pmodBy_clmul_left hq (clmul 2 (cpow 2 t.length))]
    rw [clmul_comm (cpow 2 t.length) 2]

theorem foldl_resMul_ne_zero {q : Nat} (hq : pirreducible q) :
    ∀ (L : List Nat) (b : Nat),
      (∀ s ∈ L, s ≠ 0 ∧ s < 2 ^ get_degree q) →
      b ≠ 0 → b < 2 ^ get_degree q →
      List.foldl (resMul q) b L ≠ 0 ∧
        List.foldl (resMul q) b L < 2 ^ get_degree q := by
  have hq0 : q ≠ 0 := by have := hq.1; omega
  intro L
  induction L with
  | nil => intro b _ hb0 hblt; exact ⟨hb0, hblt⟩
  | cons s t ih =>
    intro b h hb0 hblt
    obtain ⟨hs0, hslt⟩ := h s (List.mem_cons_self s t)
    have hstep : resMul q b s ≠ 0 := by
      intro hz
      have hdvd : pdvd q (clmul b s) :=
        (pdvd_iff_pmodBy_eq_zero hq0).mpr hz
      by_cases hqb : pdvd q b
      · exact hb0 (pdvd_lt_imp_zero hqb hblt)
      · have hqs := euclid_lemma hq hdvd hqb
        exact hs0 (pdvd_lt_imp_zero hqs hslt)
    exact ih (resMul q b s) (fun x hx => h x (List.mem_cons_of_mem s hx))
      hstep (resMul_lt hq0 b s)

theorem pdvd_two {q : Nat} (hq2 : 2 ≤ q) (h : pdvd q 2) : q = 2 := by
  obtain ⟨e, he⟩ := h
  have hq0 : q ≠ 0 := by omega
  have he0 : e ≠ 0 := by
    rintro rfl
    rw [clmul_zero_right] at he
    omega
  have hd := get_degree_clmul hq0 he0
  rw [he] at hd
  have hdeq : get_degree q + get_degree e = 1 := by
    have h1 := get_degree_eq_of hd.1 hd.2
    rw [show get_degree 2 = 1 from rfl] at h1
    omega
  have hdq : get_degree q = 1 := by
    rcases Nat.eq_zero_or_pos (get_degree q) with h0 | h0
    · exact absurd (deg_zero_imp_one hq0 h0) (by omega)
    · omega
  have hde : get_degree e = 0 := by omega
  rw [deg_zero_imp_one he0 hde, clmul_one_right] at he
  exact he

theorem pdvd_two_of_even {n : Nat} (h : n % 2 = 0) : pdvd 2 n :=
  ⟨n / 2, by
    rw [show (2:Nat) = 2 ^ 1 from rfl, clmul_two_pow_left]
    omega⟩

/-- Little Fermat for GF(2) polynomials: an irreducible polynomial q of
degree m divides x^(2^m) xor x (in bit encoding, 2^(2^m) xor 2). -/
theorem fermat_little {q : Nat} (hq : pirreducible q) :
    pdvd q (2 ^ 2 ^ get_degree q ^^^ 2) := by
  have hq0 : q ≠ 0 := by have := hq.1; omega
  have hm1 : 1 ≤ get_degree q := pirreducible_deg_pos hq
  have hpow1 : 1 ≤ 2 ^ get_degree q := Nat.one_le_two_pow
  by_cases hq2 : pdvd q 2
  · rw [pdvd_two hq.1 hq2]
    exact pdvd_two_of_even (by decide)
  · have hSmem : ∀ s, s ∈ List.range' 1 (2 ^ get_degree q - 1) ↔
        1 ≤ s ∧ s < 2 ^ get_degree q := by
      intro s
      rw [List.mem_range'_1]
      omega
    have hSnodup : (List.range' 1 (2 ^ get_degree q - 1)).Nodup :=
      List.nodup_range' ..
    have himg : ∀ s ∈ List.range' 1 (2 ^ get_degree q - 1),
        resMul q 2 s ∈ List.range' 1 (2 ^ get_degree q - 1) := by
      intro s hs
      rw [hSmem] at hs ⊢
      refine ⟨?_, resMul_lt hq0 2 s⟩
      rcases Nat.eq_zero_or_pos (resMul q 2 s) with h0 | h0
      · exfalso
        have hdvd : pdvd q (clmul 2 s) :=
          (pdvd_iff_pmodBy_eq_zero hq0).mpr h0
        have hqs := euclid_lemma hq hdvd hq2
        have := pdvd_lt_imp_zero hqs hs.2
        omega
      · omega
    have hinj : ∀ x ∈ List.range' 1 (2 ^ get_degree q - 1),
        ∀ y ∈ List.range' 1 (2 ^ get_degree q - 1),
        resMul q 2 x = resMul q 2 y → x = y := by
      intro x hx y hy hxy
      rw [hSmem] at hx hy
      have h0 : pmodBy q (clmul 2 (x ^^^ y)) = 0 := by
        rw [clmul_xor_right, pmodBy_xor hq0]
        unfold resMul at hxy
        rw [hxy, Nat.xor_self]
      have hdvd : pdvd q (clmul 2 (x ^^^ y)) :=
        (pdvd_iff_pmodBy_eq_zero hq0).mpr h0
      have hqxy := euclid_lemma hq hdvd hq2
      have hlt : x ^^^ y < 2 ^ get_degree q := Nat.xor_lt_two_pow hx.2 hy.2
      exact Nat.xor_eq_zero.mp (pdvd_lt_imp_zero hqxy hlt)
    have hmapnodup :
        ((List.range' 1 (2 ^ get_degree q - 1)).map
          (fun s => resMul q 2 s)).Nodup := hSnodup.map_on hinj
    have hsub : ((List.range' 1 (2 ^ get_degree q - 1)).map
        (fun s => resMul q 2 s)) ⊆ List.range' 1 (2 ^ get_degree q - 1) := by
      intro x hx
      rw [List.mem_map] at hx
      obtain ⟨s, hs, rfl⟩ := hx
      exact himg s hs
    have hperm : ((List.range' 1 (2 ^ get_degree q - 1)).map
        (fun s => resMul q 2 s)).Perm (List.range' 1 (2 ^ get_degree q - 1)) :=
      (hmapnodup.subperm hsub).perm_of_length_le (by rw [List.length_map])
    have h1lt : 1 < 2 ^ get_degree q := by
      calc (1:Nat) < 2 ^ 1 := by norm_num
        _ ≤ 2 ^ get_degree q := Nat.pow_le_pow_right (by omega) hm1
    have hZ := foldl_resMul_ne_zero hq (List.range' 1 (2 ^ get_degree q - 1))
      1 (fun s hs => by rw [hSmem] at hs; exact ⟨by omega, hs.2⟩)
      one_ne_zero h1lt
    have hfold1 : List.foldl (resMul q) 1
        ((List.range' 1 (2 ^ get_degree q - 1)).map (fun s => resMul q 2 s)) =
        List.foldl (resMul q) 1 (List.range' 1 (2 ^ get_degree q - 1)) :=
      hperm.foldl_eq' (fun x _ y _ z => resMul_right_comm hq0 z x y) 1
    have hfold2 := foldl_resMul_map hq0 hm1
      (List.range' 1 (2 ^ get_degree q - 1)) 1 h1lt
    have hSlen : (List.range' 1 (2 ^ get_degree q - 1)).length =
        2 ^ get_degree q - 1 := List.length_range' ..
    have hid : resMul q (pmodBy q (cpow 2 (2 ^ get_degree q - 1)))
        (List.foldl (resMul q) 1 (List.range' 1 (2 ^ get_degree q - 1))) =
        List.foldl (resMul q) 1 (List.range' 1 (2 ^ get_degree q - 1)) := by
      rw [hSlen] at hfold2
      rw [← hfold2, hfold1]
    have hzero : pmodBy q (clmul (cpow 2 (2 ^ get_degree q - 1) ^^^ 1)
        (List.foldl (resMul q) 1 (List.range' 1 (2 ^ get_degree q - 1)))) =
        0 := by
      rw [clmul_xor_left, pmodBy_xor hq0, clmul_one_left]
      have ha : pmodBy q (clmul (cpow 2 (2 ^ get_degree q - 1))
          (List.foldl (resMul q) 1 (List.range' 1 (2 ^ get_degree q - 1)))) =
          List.foldl (resMul q) 1 (List.range' 1 (2 ^ get_degree q - 1)) := by
        rw [pmodBy_clmul_left hq0]
        exact hid
      rw [ha, pmodBy_eq_self hq0 hZ.2, Nat.xor_self]
    have hdvd : pdvd q (clmul (cpow 2 (2 ^ get_degree q - 1) ^^^ 1)
        (List.foldl (resMul q) 1 (List.range' 1 (2 ^ get_degree q - 1)))) :=
      (pdvd_iff_pmodBy_eq_zero hq0).mpr hzero
    have hqZ : ¬pdvd q
        (List.foldl (resMul q) 1 (List.range' 1 (2 ^ get_degree q - 1))) :=
      fun hc => hZ.1 (pdvd_lt_imp_zero hc hZ.2)
    have hqt : pdvd q (cpow 2 (2 ^ get_degree q - 1) ^^^ 1) := by
      rw [clmul_comm] at hdvd
      exact euclid_lemma hq hdvd hqZ
    have hfin : 2 ^ 2 ^ get_degree q ^^^ 2 =
        clmul 2 (cpow 2 (2 ^ get_degree q - 1) ^^^ 1) := by
      rw [clmul_xor_right, clmul_one_right]
      congr 1
      rw [show clmul 2 (cpow 2 (2 ^ get_degree q - 1)) =
        cpow 2 (2 ^ get_degree q - 1 + 1) from rfl]
      rw [show 2 ^ get_degree q - 1 + 1 = 2 ^ get_degree q from by omega]
      rw [cpow_two]
    rw [hfin]
    exact pdvd_clmul hqt 2

/-- Iterated Frobenius values: x^(2^m) reduced modulo the generator. -/
def Tpow (m : Nat) : Nat := pmodBy POLYNOMIAL (2 ^ 2 ^ m)

theorem Tpow_step (m : Nat) :
    Tpow (m + 1) = pmodBy POLYNOMIAL (clmul (Tpow m) (Tpow m)) := by
  unfold Tpow
  rw [← pmodBy_clmul_left POLYNOMIAL_ne_zero,
    ← pmodBy_clmul_right POLYNOMIAL_ne_zero]
  congr 1
  rw [clmul_two_pow_right, ← pow_add]
  congr 1
  rw [pow_succ]
  omega

theorem Tpow_succ_val (m t v : Nat) (h1 : Tpow m = t)
    (h2 : pmodBy POLYNOMIAL (clmul t t) = v) : Tpow (m + 1) = v := by
  rw [Tpow_step, h1, h2]

theorem TpowV1 : Tpow 1 = 0x4 := by
  unfold Tpow
  decide

theorem TpowV2 : Tpow 2 = 0x10 :=
  Tpow_succ_val 1 0x4 0x10 TpowV1 (by decide)

theorem TpowV3 : Tpow 3 = 0x100 :=
  Tpow_succ_val 2 0x10 0x100 TpowV2 (by decide)

theorem TpowV4 : Tpow 4 = 0x10000 :=
  Tpow_succ_val 3 0x100 0x10000 TpowV3 (by decide)

theorem TpowV5 : Tpow 5 = 0x4c11db7 :=
  Tpow_succ_val 4 0x10000 0x4c11db7 TpowV4 (by decide)

theorem TpowV6 : Tpow 6 = 0x490d678d :=
  Tpow_succ_val 5 0x4c11db7 0x490d678d TpowV5 (by decide)

theorem TpowV7 : Tpow 7 = 0xe8a45605 :=
  Tpow_succ_val 6 0x490d678d 0xe8a45605 TpowV6 (by decide)

theorem TpowV8 : Tpow 8 = 0x75be46b7 :=
  Tpow_succ_val 7 0xe8a45605 0x75be46b7 TpowV7 (by decide)

theorem TpowV9 : Tpow 9 = 0xe6228b11 :=
  Tpow_succ_val 8 0x75be46b7 0xe6228b11 TpowV8 (by decide)

theorem TpowV10 : Tpow 10 = 0x567fddeb :=
  Tpow_succ_val 9 0xe6228b11 0x567fddeb TpowV9 (by decide)

theorem TpowV11 : Tpow 11 = 0x88fe2237 :=
  Tpow_succ_val 10 0x567fddeb 0x88fe2237 TpowV10 (by decide)

theorem TpowV12 : Tpow 12 = 0xe857e71 :=
  Tpow_succ_val 11 0x88fe2237 0xe857e71 TpowV11 (by decide)

theorem TpowV13 : Tpow 13 = 0x7001e426 :=
  Tpow_succ_val 12 0xe857e71 0x7001e426 TpowV12 (by decide)

theorem TpowV14 : Tpow 14 = 0x75de2b2 :=
  Tpow_succ_val 13 0x7001e426 0x75de2b2 TpowV13 (by decide)

theorem TpowV15 : Tpow 15 = 0xf12a7f90 :=
  Tpow_succ_val 14 0x75de2b2 0xf12a7f90 TpowV14 (by decide)

theorem TpowV16 : Tpow 16 = 0xf0b4a1c1 :=
  Tpow_succ_val 15 0xf12a7f90 0xf0b4a1c1 TpowV15 (by decide)

theorem cert_kill {q Y a b : Nat} (hq : pdvd q Y)
    (hP : pdvd q POLYNOMIAL)
    (hcert : clmul a Y ^^^ clmul b POLYNOMIAL = 1) : q = 1 := by
  apply pdvd_one
  rw [← hcert]
  exact pdvd_xor (pdvd_clmul hq a) (pdvd_clmul hP b)

theorem xor_shift_out {a b c : Nat} (h : a ^^^ b = c) : b = a ^^^ c := by
  rw [← h, ← Nat.xor_assoc, Nat.xor_self, Nat.zero_xor]

theorem no_small_factor {q : Nat} (hqirr : pirreducible q)
    (hqP : pdvd q POLYNOMIAL) (hdeg : get_degree q ≤ 16) : False := by
  have hm1 : 1 ≤ get_degree q := pirreducible_deg_pos hqirr
  have hferm := fermat_little hqirr
  have hT : pdvd q (Tpow (get_degree q) ^^^ 2) := by
    have hex := pmodBy_exists POLYNOMIAL_ne_zero (2 ^ 2 ^ get_degree q)
    have hT2 : Tpow (get_degree q) = 2 ^ 2 ^ get_degree q ^^^
        clmul (divRemT (2 ^ 2 ^ get_degree q) POLYNOMIAL).1 POLYNOMIAL := by
      have h2 := xor_shift_out hex
      rw [Nat.xor_comm] at h2
      exact h2
    have heq : Tpow (get_degree q) ^^^ 2 =
        (2 ^ 2 ^ get_degree q ^^^ 2) ^^^
          clmul (divRemT (2 ^ 2 ^ get_degree q) POLYNOMIAL).1 POLYNOMIAL := by
      rw [hT2, Nat.xor_assoc, Nat.xor_assoc,
        Nat.xor_comm (clmul (divRemT (2 ^ 2 ^ get_degree q) POLYNOMIAL).1
          POLYNOMIAL) 2]
    rw [heq]
    exact pdvd_xor hferm (pdvd_clmul hqP _)
  have hq1 : q ≠ 1 := by
    have := hqirr.1
    omega
  obtain ⟨m, hm⟩ : ∃ m, get_degree q = m := ⟨_, rfl⟩
  rw [hm] at hT hm1 hdeg
  interval_cases m

  · rw [TpowV1] at hT
    exact hq1 (cert_kill (a := 0x7e207a49) (b := 0x1) hT hqP (by decide))

  · rw [TpowV2] at hT
    exact hq1 (cert_kill (a := 0xa67bc430) (b := 0xb) hT hqP (by decide))

  · rw [TpowV3] at hT
    exact hq1 (cert_kill (a := 0xd7a455ad) (b := 0xd5) hT hqP (by decide))

  · rw [TpowV4] at hT
    exact hq1 (cert_kill (a := 0xcec16c5c) (b := 0xcda3) hT hqP (by decide))

  · rw [TpowV5] at hT
    exact hq1 (cert_kill (a := 0xa055bd37) (b := 0x2f3cc9e) hT hqP (by decide))

  · rw [TpowV6] at hT
    exact hq1 (cert_kill (a := 0x5707c77c) (b := 0x177ee837) hT hqP (by decide))

  · rw [TpowV7] at hT
    exact hq1 (cert_kill (a := 0xd9630d4f) (b := 0x465145d4) hT hqP (by decide))

  · rw [TpowV8] at hT
    exact hq1 (cert_kill (a := 0x7968ef5b) (b := 0x1719955a) hT hqP (by decide))

  · rw [TpowV9] at hT
    exact hq1 (cert_kill (a := 0x3b990c6b) (b := 0x149abef4) hT hqP (by decide))

  · rw [TpowV10] at hT
    exact hq1 (cert_kill (a := 0x6148404a) (b := 0x1f64ad55) hT hqP (by decide))

  · rw [TpowV11] at hT
    exact hq1 (cert_kill (a := 0xd7d33d33) (b := 0x6c85d442) hT hqP (by decide))

  · rw [TpowV12] at hT
    exact hq1 (cert_kill (a := 0x3ac6f65a) (b := 0x150a789) hT hqP (by decide))

  · rw [TpowV13] at hT
    exact hq1 (cert_kill (a := 0x73c69c0d) (b := 0x15ed6837) hT hqP (by decide))

  · rw [TpowV14] at hT
    exact hq1 (cert_kill (a := 0x36b5af19) (b := 0x8cd17b) hT hqP (by decide))

  · rw [TpowV15] at hT
    exact hq1 (cert_kill (a := 0x212287d2) (b := 0x1eb9d287) hT hqP (by decide))

  · rw [TpowV16] at hT
    exact hq1 (cert_kill (a := 0xabe93d4e) (b := 0x6129a08d) hT hqP (by decide))


/-- The CRC-32 generator polynomial 0x104C11DB7 is irreducible over GF(2). -/
theorem POLYNOMIAL_pirreducible : pirreducible POLYNOMIAL := by
  constructor
  · decide
  · intro u v huv
    by_contra hc
    push_neg at hc
    obtain ⟨hu1, hv1⟩ := hc
    have hu0 : u ≠ 0 := by
      rintro rfl
      rw [clmul_zero_left] at huv
      exact POLYNOMIAL_ne_zero huv.symm
    have hv0 : v ≠ 0 := by
      rintro rfl
      rw [clmul_zero_right] at huv
      exact POLYNOMIAL_ne_zero huv.symm
    have hdsum := get_degree_clmul hu0 hv0
    rw [huv] at hdsum
    have hsum32 : get_degree u + get_degree v = 32 := by
      have h1 := get_degree_eq_of hdsum.1 hdsum.2
      rw [get_degree_POLYNOMIAL] at h1
      omega
    have hu2 : 2 ≤ u := by
      rcases Nat.lt_or_ge u 2 with hcase | hcase
      · interval_cases u
        · exact absurd rfl hu0
        · exact absurd rfl hu1
      · exact hcase
    have hv2 : 2 ≤ v := by
      rcases Nat.lt_or_ge v 2 with hcase | hcase
      · interval_cases v
        · exact absurd rfl hv0
        · exact absurd rfl hv1
      · exact hcase
    rcases le_or_lt (get_degree u) 16 with hle | hgt
    · obtain ⟨qq, hqirr, hqdvd, hqdeg⟩ := exists_pirreducible_factor u hu2
      exact no_small_factor hqirr (pdvd_trans hqdvd ⟨v, huv⟩) (by omega)
    · have hdvle : get_degree v ≤ 16 := by omega
      obtain ⟨qq, hqirr, hqdvd, hqdeg⟩ := exists_pirreducible_factor v hv2
      have hvP : pdvd v POLYNOMIAL := ⟨u, by rw [clmul_comm]; exact huv⟩
      exact no_small_factor hqirr (pdvd_trans hqdvd hvP) (by omega)

theorem coprime_POLYNOMIAL {x : Nat} (h0 : x ≠ 0) (h32 : x < 2 ^ 32) :
    ∀ d, pdvd d POLYNOMIAL → pdvd d x → d = 1 := by
  intro d hdP hdx
  rcases pirreducible_divisors POLYNOMIAL_pirreducible hdP with h1 | h1
  · exact h1
  · subst h1
    obtain ⟨_, hdeg⟩ := pdvd_deg_le hdx h0
    rw [get_degree_POLYNOMIAL] at hdeg
    have := get_degree_lt_of_lt h0 h32
    omega

/-- C6: for every nonzero 32-bit x (degree < 32) the extended Euclidean
inverse exists — reciprocal_mod never raises "Reciprocal does not exist" —
and multiplying the inverse back gives 1, whose reciprocal is again 1. This
rests on the generator polynomial 0x104C11DB7 being irreducible, which is
verified through Fermat certificates for every possible factor degree up
to 16. -/
theorem C6_reciprocal (x : Nat) (h0 : 0 < x) (h32 : x < 2 ^ 32) :
    ∃ a, reciprocal_mod x = .ok a ∧
      reciprocal_mod (multiply_mod a x) = .ok 1 := by
  obtain ⟨a, ha, halt, hinv⟩ :=
    reciprocal_mod_spec (by omega) h32 (coprime_POLYNOMIAL (by omega) h32)
  refine ⟨a, ha, ?_⟩
  have hmm : multiply_mod a x = 1 := by
    rw [multiply_mod_spec halt]
    exact hinv
  rw [hmm]
  rfl

/-- Witness for C6 at a concrete 32-bit value. -/
theorem C6_reciprocal_witness :
    ∃ a, reciprocal_mod 0xDEADBEEF = .ok a ∧
      reciprocal_mod (multiply_mod a 0xDEADBEEF) = .ok 1 :=
  C6_reciprocal 0xDEADBEEF (by decide) (by decide)
